import Mathlib

/-!
# package-coverage: threshold reporter and tree walker

A shallow embedding of `package-coverage/parser/parser.go` and
`package-coverage/utils/directories.go`.

* Go `int` is a 64-bit two's complement integer: sums are taken with `wrapInt64`.
* Go `float64` is IEEE-754 binary64 with round-to-nearest-even: `F64`.
* Go `string` is embedded as `String`; the path functions only inspect the
  ASCII characters `/`, `.` and `_`.
-/

set_option maxRecDepth 100000

namespace PackageCoverage

/-! ## binary64 arithmetic -/

/-- Values of Go's `float64`. A finite value is stored as sign, significand `m` and
exponent `e` and denotes `± m * 2 ^ e`; the representation produced by `F64.round`
is the canonical one (`m < 2 ^ 53`, and `2 ^ 52 ≤ m` unless `e = -1074`). -/
inductive F64 where
  | nan : F64
  | inf (neg : Bool) : F64
  | fin (neg : Bool) (m : Nat) (e : Int) : F64
  deriving DecidableEq, Repr

/-- Number of binary digits, by halving; `fuel` bounds the number of halvings. -/
def bitLenAux : Nat → Nat → Nat
  | 0, _ => 0
  | fuel + 1, n => if n = 0 then 0 else 1 + bitLenAux fuel (n / 2)

/-- Number of binary digits of `n` (`0` for `0`). -/
def bitLen (n : Nat) : Nat := bitLenAux n n

/-- The integer nearest to `n / d`, a tie going to the even neighbour. -/
def rne (n d : Nat) : Nat :=
  if 2 * (n % d) < d then n / d
  else if d < 2 * (n % d) then n / d + 1
  else n / d + (n / d) % 2

/-- Numerator and denominator of `(n / d) / 2 ^ e`. -/
def scale (n d : Nat) (e : Int) : Nat × Nat :=
  if 0 ≤ e then (n, d * 2 ^ e.toNat) else (n * 2 ^ (-e).toNat, d)

/-- Exponent `e` with `2 ^ 52 ≤ (n / d) / 2 ^ e < 2 ^ 53` for a positive ratio `n / d`:
the estimate from the bit lengths is at most one too large. -/
def normExp (n d : Nat) : Int :=
  let e0 : Int := (bitLen n : Int) - (bitLen d : Int) - 52
  if (scale n d e0).1 < 2 ^ 52 * (scale n d e0).2 then e0 - 1 else e0

/-- Exponent of the unit in the last place of the binary64 value nearest to `n / d`:
`normExp`, but never below the subnormal exponent `-1074`. -/
def ulpExp (n d : Nat) : Int := max (normExp n d) (-1074)

/-- Round the ratio `n / d` (`d ≠ 0`) to the nearest binary64 value, ties to even,
with the given sign. -/
def F64.round (neg : Bool) (n d : Nat) : F64 :=
  if n = 0 then .fin neg 0 (-1074)
  else
    let e := ulpExp n d
    let m := rne (scale n d e).1 (scale n d e).2
    if m = 2 ^ 53 then
      if 971 < e + 1 then .inf neg else .fin neg (2 ^ 52) (e + 1)
    else if 971 < e then .inf neg else .fin neg m e

/-- Conversion `float64(x)` of an integer. -/
def F64.ofInt (x : Int) : F64 := F64.round (decide (x < 0)) x.natAbs 1

/-- The quotient `x / y` of binary64 values. -/
def F64.div : F64 → F64 → F64
  | .nan, _ => .nan
  | _, .nan => .nan
  | .inf _, .inf _ => .nan
  | .inf s, .fin t _ _ => .inf (xor s t)
  | .fin s _ _, .inf t => .fin (xor s t) 0 (-1074)
  | .fin s m e, .fin t m' e' =>
    if m' = 0 then (if m = 0 then .nan else .inf (xor s t))
    else F64.round (xor s t) (m * 2 ^ (e - min e e').toNat) (m' * 2 ^ (e' - min e e').toNat)

/-- The product `x * y` of binary64 values. -/
def F64.mul : F64 → F64 → F64
  | .nan, _ => .nan
  | _, .nan => .nan
  | .inf s, .inf t => .inf (xor s t)
  | .inf s, .fin t m _ => if m = 0 then .nan else .inf (xor s t)
  | .fin s m _, .inf t => if m = 0 then .nan else .inf (xor s t)
  | .fin s m e, .fin t m' e' =>
    F64.round (xor s t) (scale (m * m') 1 (-(e + e'))).1 (scale (m * m') 1 (-(e + e'))).2

/-- A finite value scaled to an integer: `± m * 2 ^ (e - lo)`. -/
def F64.scaled (neg : Bool) (m : Nat) (e lo : Int) : Int :=
  if neg then -((m * 2 ^ (e - lo).toNat : Nat) : Int) else ((m * 2 ^ (e - lo).toNat : Nat) : Int)

/-- The comparison `x < y` of binary64 values; false whenever an operand is NaN. -/
def F64.lt : F64 → F64 → Bool
  | .nan, _ => false
  | _, .nan => false
  | .inf s, .inf t => s && !t
  | .inf s, .fin _ _ _ => s
  | .fin _ _ _, .inf t => !t
  | .fin s m e, .fin t m' e' =>
    decide (F64.scaled s m e (min e e') < F64.scaled t m' e' (min e e'))

/-- The rational number a finite binary64 value denotes (`0` for NaN and infinities). -/
def F64.toRat : F64 → ℚ
  | .fin neg m e => (if neg then -1 else 1) * (m : ℚ) * (2 : ℚ) ^ e
  | _ => 0

/-- Whether a binary64 value is finite. -/
def F64.isFinite : F64 → Bool
  | .fin _ _ _ => true
  | _ => false

/-! ## parser.go -/

/-- Wrap an integer into the range of Go's 64-bit `int`. -/
def wrapInt64 (x : Int) : Int := (x + 2 ^ 63) % 2 ^ 64 - 2 ^ 63

/-- Modelled from the spec: the struct `coverage` is declared outside the sources at hand.
It is the CoverageNode of the specification, four integer counts: the statements and the
covered statements of the package itself and of its sub-packages. The counts are Go `int`
values, as `getStats` adds them before converting to `float64`. -/
structure coverage where
  selfStatements : Int
  selfCovered : Int
  childStatements : Int
  childCovered : Int
  deriving DecidableEq, Repr

/-- Function `getStats`: the coverage percentage and the number of statements of a node,
both as `float64`. -/
def getStats (cover : coverage) : F64 × F64 :=
  let stmts := F64.ofInt (wrapInt64 (cover.selfStatements + cover.childStatements))
  let stmtsCovered := F64.ofInt (wrapInt64 (cover.selfCovered + cover.childCovered))
  let covered := F64.mul (F64.div stmtsCovered stmts) (F64.ofInt 100)
  (covered, stmts)

/-- The percentage in the specification's words: covered statements over total
statements, times one hundred, as an exact rational number. -/
def exactPercent (c : coverage) : ℚ :=
  ((c.selfCovered + c.childCovered : Int) : ℚ) / ((c.selfStatements + c.childStatements : Int) : ℚ)
    * 100

/-- The type `coverageByPackage`, a Go map from package key to coverage node, as the
list of its entries in the order `range` enumerates them; keys of a map are distinct. -/
abbrev coverageByPackage := List (String × coverage)

/-- The keys of a map in enumeration order. -/
def coverageByPackage.keys (coverageData : coverageByPackage) : List String :=
  coverageData.map Prod.fst

/-- Library function `sort.Strings`: sorts into ascending order. Go compares strings byte
by byte, which on UTF-8 text is the order of `String` by code points. -/
def sortStrings (xs : List String) : List String := xs.insertionSort (· ≤ ·)

/-- Function `getSortedPackages`: collects the keys of the map and sorts them. -/
def getSortedPackages (coverageData : coverageByPackage) : List String :=
  sortStrings (coverageData.foldl (fun output entry => output ++ [entry.1]) [])

/-- The two output streams of the process. -/
inductive Stream where
  | stdout
  | stderr
  deriving DecidableEq, Repr

/-- What `printCoverage` writes: the header line, one row for a package with its
percentage and statement count, and the final blank line. -/
inductive Line where
  | header : Line
  | row (stream : Stream) (covered stmts : F64) (pkg : String) : Line
  | blank : Line
  deriving DecidableEq, Repr

/-- The loop of `printCoverage` over the package keys, carrying the lines written so
far and the flag `coverageOk`. A key without a node makes `coverageData[pkg]` a nil
pointer, and `getStats` panics on it: `none`. -/
def printCoverageLoop (coverageData : coverageByPackage) (minCoverage : F64) :
    List String → List Line → Bool → Option (List Line × Bool)
  | [], out, coverageOk => some (out, coverageOk)
  | pkg :: rest, out, coverageOk =>
    match coverageData.lookup pkg with
    | none => none
    | some cover =>
      if F64.lt (getStats cover).1 minCoverage then
        printCoverageLoop coverageData minCoverage rest
          (out ++ [Line.row Stream.stderr (getStats cover).1 (getStats cover).2 pkg]) false
      else
        printCoverageLoop coverageData minCoverage rest
          (out ++ [Line.row Stream.stdout (getStats cover).1 (getStats cover).2 pkg]) coverageOk

/-- Function `printCoverage`: writes the report and returns whether every package reaches the
minimum coverage. -/
def printCoverage (pkgs : List String) (coverageData : coverageByPackage) (minCoverage : F64) :
    Option (List Line × Bool) :=
  match printCoverageLoop coverageData minCoverage pkgs [Line.header] true with
  | none => none
  | some (out, coverageOk) => some (out ++ [Line.blank], coverageOk)

/-- Whether a written line is a package row. -/
def Line.isRow : Line → Bool
  | .row _ _ _ _ => true
  | _ => false

/-- Whether a written line is a package row on the given stream. -/
def Line.isRowOn (s : Stream) : Line → Bool
  | .row s' _ _ _ => decide (s' = s)
  | _ => false

/-- The row `printCoverage` writes for a package with the given node. -/
def rowOf (minCoverage : F64) (pkg : String) (cover : coverage) : Line :=
  Line.row (if F64.lt (getStats cover).1 minCoverage then Stream.stderr else Stream.stdout)
    (getStats cover).1 (getStats cover).2 pkg

/-! ## directories.go -/

/-- Library function `strings.HasPrefix`. -/
def HasPrefix (s pre : String) : Bool := pre.data.isPrefixOf s.data

/-- Library function `strings.HasSuffix`. -/
def HasSuffix (s suf : String) : Bool := suf.data.isSuffixOf s.data

/-- Library function `strings.Contains`. -/
def Contains (s sub : String) : Bool := decide (sub.data <:+: s.data)

/-- Library function `strings.TrimPrefix`. -/
def TrimPrefix (s pre : String) : String :=
  if HasPrefix s pre then ⟨s.data.drop pre.data.length⟩ else s

/-- The part of a path after its last separator `/`. -/
def lastElem (cs : List Char) : List Char := (cs.reverse.takeWhile (· ≠ '/')).reverse

/-- Library function `filepath.Split`: the path up to and including its last separator, and the rest. -/
def Split (path : String) : String × String :=
  (⟨path.data.take (path.data.length - (lastElem path.data).length)⟩, ⟨lastElem path.data⟩)

/-- The elements of a path: the pieces between its separators. -/
def splitSep : List Char → List (List Char)
  | [] => [[]]
  | c :: cs =>
    if c = '/' then [] :: splitSep cs
    else
      match splitSep cs with
      | [] => [[c]]
      | s :: rest => (c :: s) :: rest

/-- Path elements joined by the separator. -/
def joinSep : List (List Char) → List Char
  | [] => []
  | [s] => s
  | s :: t :: rest => s ++ '/' :: joinSep (t :: rest)

/-- One step of `filepath.Clean` over the elements of a path; `stack` holds the
elements kept so far, the last one first. Empty elements and `.` are dropped, `..`
removes the element before it when there is one to remove, and is kept otherwise
unless the path is rooted. -/
def cleanStep (rooted : Bool) (stack : List (List Char)) (seg : List Char) : List (List Char) :=
  if seg = [] ∨ seg = ['.'] then stack
  else if seg = ['.', '.'] then
    match stack with
    | [] => if rooted then [] else [seg]
    | top :: rest => if !rooted && top = ['.', '.'] then seg :: stack else rest
  else seg :: stack

/-- The elements `filepath.Clean` keeps, in order. -/
def cleanElems (rooted : Bool) (cs : List Char) : List (List Char) :=
  ((splitSep cs).foldl (cleanStep rooted) []).reverse

/-- Library function `filepath.Clean` (Unix): the shortest path equivalent to `path` by purely lexical
processing. -/
def Clean (path : String) : String :=
  if path.data = [] then "."
  else if path.data.head? = some '/' then ⟨'/' :: joinSep (cleanElems true path.data)⟩
  else if cleanElems false path.data = [] then "."
  else ⟨joinSep (cleanElems false path.data)⟩

/-- Library function `filepath.Dir`: all but the last element of the path, cleaned. -/
def Dir (path : String) : String := Clean (Split path).1

/-- Library function `filepath.Join` of two elements: empty elements are ignored, the result is cleaned. -/
def Join (dir name : String) : String :=
  if dir ≠ "" then Clean (dir ++ "/" ++ name)
  else if name ≠ "" then Clean name
  else ""

/-- Error values: `filepath.SkipDir`, and any other failure with its message. -/
inductive Err where
  | SkipDir : Err
  | failure (msg : String) : Err
  deriving DecidableEq, Repr

/-- The `mode` of a search. -/
inductive mode where
  | goFiles : mode
  | coverageFiles : mode
  deriving DecidableEq, Repr

/-- Outcome of `build.ImportDir` on a directory. -/
inductive ImportResult where
  | ok : ImportResult
  | noGo : ImportResult
  | failed : ImportResult
  deriving DecidableEq, Repr

/-- The messages the walker hands to `LogWhenVerbose`. -/
inductive LogMsg where
  | restoreFailed (changeDirErr : Option Err) : LogMsg
  | checkFailed (path : String) : LogMsg
  | skippingVendor (path : String) : LogMsg
  | unexpectedImportError : LogMsg
  deriving DecidableEq, Repr

/-- Modelled from the spec: `LogWhenVerbose` is declared outside the sources at hand; the
spec only says that such failures are "logged". The message is appended to the log when
verbose output is enabled. -/
def LogWhenVerbose (verbose : Bool) (log : List LogMsg) (msg : LogMsg) : List LogMsg :=
  if verbose then log ++ [msg] else log

/-- A file tree as `filepath.Walk` sees it: a non-directory, an entry whose `Lstat`
fails, or a directory (readable or not) with its entries in the order
`readDirNames` returns them. -/
inductive FsNode where
  | file : FsNode
  | broken : FsNode
  | dir (readable : Bool) (entries : List (String × FsNode)) : FsNode

/-- Method `FileInfo.IsDir` of a node. -/
def FsNode.isDir : FsNode → Bool
  | .dir _ _ => true
  | _ => false

/-- Library function `filepath.Walk` below the root, as in current Go releases: the names
of a directory are read before the walk function is called for it. `walkFn` receives the state, the path, whether the
entry is a directory, and whether an error is reported for it. -/
def walk {σ : Type} (walkFn : σ → String → Bool → Bool → σ × Option Err) :
    String → FsNode → σ → σ × Option Err
  | path, .file, s => walkFn s path false false
  | path, .broken, s => walkFn s path false true
  | path, .dir readable entries, s =>
    let r := walkFn s path true (!readable)
    if !readable || r.2.isSome then r
    else walkEntries walkFn path entries r.1
where
  /-- The loop of `walk` over the names of a directory. -/
  walkEntries {σ : Type} (walkFn : σ → String → Bool → Bool → σ × Option Err) :
    String → List (String × FsNode) → σ → σ × Option Err
  | _, [], s => (s, none)
  | path, (name, node) :: rest, s =>
    match node with
    | .broken =>
      let r := walkFn s (Join path name) false true
      if r.2.isSome && r.2 != some Err.SkipDir then r
      else walkEntries walkFn path rest r.1
    | node =>
      let r := walk walkFn (Join path name) node s
      if r.2.isSome && (!node.isDir || r.2 != some Err.SkipDir) then r
      else walkEntries walkFn path rest r.1

/-- Library function `filepath.Walk`: walks the tree at `root`; `SkipDir` from the root is not an error. -/
def Walk {σ : Type} (root : String) (tree : FsNode)
    (walkFn : σ → String → Bool → Bool → σ × Option Err) (s : σ) : σ × Option Err :=
  let r := walk walkFn root tree s
  if r.2 = some Err.SkipDir then (r.1, none) else r

/-- What the walker reads from its environment. -/
structure World where
  /-- result of `os.Getwd` when `finder` is called (empty when it fails) -/
  getwd : String
  /-- result of `os.Getwd` after `os.Chdir(basePath)` succeeded, `none` when it fails -/
  baseWd : Option String
  /-- the file tree at `./` after the change of directory -/
  tree : FsNode
  /-- outcome of `build.ImportDir` per path -/
  importDir : String → ImportResult
  /-- whether `os.Chdir(oldCurrentDirectory)` succeeds -/
  restoreOk : Bool
  /-- whether verbose logging is on -/
  verbose : Bool

/-- Function `GetCurrentDir`: the working directory with a trailing separator; an error of
`os.Getwd` is ignored. -/
def GetCurrentDir (wd : String) : String := wd ++ "/"

/-- Function `getPathEnd`. -/
def getPathEnd (path : String) : String := TrimPrefix path (Dir path)

/-- Function `hiddenOrSystemDirs`. -/
def hiddenOrSystemDirs (pathEnd : String) : Bool :=
  HasPrefix pathEnd "/." || HasPrefix pathEnd "/_"

/-- Function `hasGoFiles`, with the log it extends. -/
def hasGoFiles (importDir : String → ImportResult) (verbose : Bool) (log : List LogMsg)
    (path : String) : Bool × List LogMsg :=
  match importDir path with
  | .ok => (true, log)
  | .noGo => (false, log)
  | .failed => (false, LogWhenVerbose verbose log LogMsg.unexpectedImportError)

/-- Function `checkForGo`: the found path, the error, and the log. -/
def checkForGo (wd : String) (importDir : String → ImportResult) (verbose : Bool)
    (log : List LogMsg) (path : String) (isDir : Bool) : String × Option Err × List LogMsg :=
  if !isDir then ("", none, log)
  else
    let filename := (Split path).2
    if HasPrefix filename "." || HasPrefix filename "_" || filename = "testdata" then
      ("", some Err.SkipDir, log)
    else if hiddenOrSystemDirs (getPathEnd path) then ("", some Err.SkipDir, log)
    else
      let r := hasGoFiles importDir verbose log path
      if !r.1 then ("", none, r.2)
      else if path = "./" then (GetCurrentDir wd, none, r.2)
      else (GetCurrentDir wd ++ path ++ "/", none, r.2)

/-- Function `checkForCoverage`: the found path and the error. -/
def checkForCoverage (wd : String) (path : String) (isDir : Bool) : String × Option Err :=
  if isDir then ("", none)
  else
    let filename := (Split path).2
    if HasPrefix filename "." || HasPrefix filename "_" then ("", none)
    else if HasSuffix path ".cov" then (GetCurrentDir wd ++ path, none)
    else ("", none)

/-- The state the walk function of `finder` updates: the slice `found` and the log. -/
structure FinderState where
  found : List String
  log : List LogMsg
  deriving DecidableEq, Repr

/-- The function literal `finder` passes to `filepath.Walk`. -/
def finderWalkFn (wd : String) (importDir : String → ImportResult) (verbose : Bool)
    (searchFor : mode) (s : FinderState) (path : String) (isDir : Bool) (err : Bool) :
    FinderState × Option Err :=
  if err then (⟨s.found, LogWhenVerbose verbose s.log (LogMsg.checkFailed path)⟩, none)
  else
    let r : String × Option Err × List LogMsg :=
      match searchFor with
      | .goFiles => checkForGo wd importDir verbose s.log path isDir
      | .coverageFiles => ((checkForCoverage wd path isDir).1, (checkForCoverage wd path isDir).2, s.log)
    if r.2.1.isSome then (⟨s.found, r.2.2⟩, r.2.1)
    else if r.1 ≠ "" then
      if Contains r.1 "/vendor/" then
        (⟨s.found, LogWhenVerbose verbose r.2.2 (LogMsg.skippingVendor path)⟩, none)
      else (⟨s.found ++ [r.1], r.2.2⟩, none)
    else (⟨s.found, r.2.2⟩, none)

/-- What `finder` returns and does: the paths and error it returns (a nil slice is the
empty list), the log, and the directories passed to `os.Chdir`, in order. -/
structure FinderResult where
  paths : List String
  err : Option Err
  log : List LogMsg
  chdirs : List String
  deriving DecidableEq, Repr

/-- Function `finder`. The variable `err` holds the result of `os.Chdir(basePath)`; the deferred
function calls `os.Chdir(oldCurrentDirectory)` and logs when `err` is set. -/
def finder (w : World) (basePath : String) (searchFor : mode) : FinderResult :=
  let oldCurrentDirectory := GetCurrentDir w.getwd
  let err : Option Err := if w.baseWd.isSome then none else some (Err.failure "chdir")
  if err.isSome then ⟨[], err, [], [basePath]⟩
  else
    let r := Walk "./" w.tree
      (finderWalkFn (w.baseWd.getD "") w.importDir w.verbose searchFor) ⟨[], []⟩
    let changeDirErr : Option Err := if w.restoreOk then none else some (Err.failure "chdir")
    let log :=
      if err.isSome then LogWhenVerbose w.verbose r.1.log (LogMsg.restoreFailed changeDirErr)
      else r.1.log
    ⟨r.1.found, none, log, [basePath, oldCurrentDirectory]⟩

/-- Function `FindAllGoDirs`. -/
def FindAllGoDirs (w : World) (basePath : String) : FinderResult := finder w basePath mode.goFiles

/-- Function `FindAllCoverageFiles`. -/
def FindAllCoverageFiles (w : World) (basePath : String) : FinderResult :=
  finder w basePath mode.coverageFiles

/-- A name `readDirNames` can return: not empty, without separator, neither `.` nor `..`. -/
def validName (s : List Char) : Prop :=
  s ≠ [] ∧ '/' ∉ s ∧ s ≠ ['.'] ∧ s ≠ ['.', '.']

/-- The paths `filepath.Walk("./", ...)` passes to the walk function: the root `./`
itself, and below it the names from the root down to the entry, joined by separators. -/
inductive Visited : String → Prop where
  | root : Visited "./"
  | entry (parents : List (List Char)) (name : List Char) :
      (∀ s ∈ parents ++ [name], validName s) → Visited ⟨joinSep (parents ++ [name])⟩

/-- Every name in the tree is one `readDirNames` can return. -/
def FsNode.WellNamed : FsNode → Prop
  | .dir _ entries => wellNamedEntries entries
  | _ => True
where
  /-- The entries of a directory, and the trees below them, have valid names. -/
  wellNamedEntries : List (String × FsNode) → Prop
  | [] => True
  | (name, node) :: rest => validName name.data ∧ node.WellNamed ∧ wellNamedEntries rest

/-! ## sample inputs -/

/-- A tree with a hidden directory, an underscore directory, and vendored
directories at two depths, each holding a coverage profile. -/
def sampleTree : FsNode :=
  .dir true [
    (".hidden", .dir true [("x.cov", .file)]),
    ("_tmp", .dir true [("y.cov", .file)]),
    ("a", .dir true [
      ("b.cov", .file),
      ("vendor", .dir true [("thirdparty", .dir true [("v.cov", .file)])])]),
    ("vendor", .dir true [("thirdparty", .dir true [("w.cov", .file)])])]

/-- A run from `/home/u` on the base path `proj` holding `sampleTree`, in which every
directory has Go files, verbose logging is on, and changing back to `/home/u/` fails. -/
def sampleWorld : World :=
  { getwd := "/home/u", baseWd := some "/home/u/proj", tree := sampleTree,
    importDir := fun _ => ImportResult.ok, restoreOk := false, verbose := true }

/-- A map with the two packages of the specification's scenario B, enumerated with
`pkg/sub` first. -/
def sampleCoverage : coverageByPackage :=
  [("pkg/sub", ⟨2, 2, 0, 0⟩), ("pkg", ⟨4, 1, 2, 2⟩)]

/-! ## lemmas -/

theorem bitLenAux_bounds : ∀ (fuel n : Nat), n ≤ fuel → 0 < n →
    2 ^ bitLenAux fuel n ≤ 2 * n ∧ n < 2 ^ bitLenAux fuel n
  | 0, n, h, hn => by omega
  | fuel + 1, n, h, hn => by
    have hne : n ≠ 0 := by omega
    simp only [bitLenAux, if_neg hne]
    by_cases h2 : n / 2 = 0
    · have h1 : n = 1 := by omega
      subst h1
      cases fuel with
      | zero => simp [bitLenAux]
      | succ f => simp [bitLenAux]
    · have ih := bitLenAux_bounds fuel (n / 2) (by omega) (by omega)
      rw [Nat.pow_add, Nat.pow_one]
      constructor
      · have := ih.1; omega
      · have := ih.2; omega

theorem bitLen_bounds (n : Nat) (hn : 0 < n) : 2 ^ bitLen n ≤ 2 * n ∧ n < 2 ^ bitLen n :=
  bitLenAux_bounds n n le_rfl hn

theorem scale_snd_pos (n d : Nat) (e : Int) (hd : 0 < d) : 0 < (scale n d e).2 := by
  unfold scale
  split
  · positivity
  · exact hd

theorem scale_ratio (n d : Nat) (e : Int) (hd : 0 < d) :
    ((scale n d e).1 : ℚ) = (n : ℚ) / d / (2 : ℚ) ^ e * ((scale n d e).2 : ℚ) := by
  have hd' : (d : ℚ) ≠ 0 := by exact_mod_cast hd.ne'
  unfold scale
  split
  · rename_i h
    obtain ⟨k, rfl⟩ := Int.eq_ofNat_of_zero_le h
    simp only [Int.toNat_ofNat, zpow_natCast]
    push_cast
    field_simp
  · rename_i h
    obtain ⟨k, hk⟩ := Int.eq_ofNat_of_zero_le (show 0 ≤ -e by omega)
    have he : e = -(k : Int) := by omega
    subst he
    simp only [neg_neg, Int.toNat_ofNat, zpow_neg, zpow_natCast]
    push_cast
    field_simp

theorem rne_error (n d : Nat) (hd : 0 < d) :
    |((rne n d : Nat) : ℚ) - (n : ℚ) / d| ≤ 1 / 2 := by
  have hd' : (0 : ℚ) < d := by exact_mod_cast hd
  have hdiv : (n : ℚ) = (d : ℚ) * ((n / d : Nat) : ℚ) + ((n % d : Nat) : ℚ) := by
    exact_mod_cast (Nat.div_add_mod n d).symm
  have hr : ((n % d : Nat) : ℚ) < d := by exact_mod_cast Nat.mod_lt n hd
  have hr0 : (0 : ℚ) ≤ ((n % d : Nat) : ℚ) := by positivity
  have key : (n : ℚ) / d = ((n / d : Nat) : ℚ) + ((n % d : Nat) : ℚ) / d := by
    rw [hdiv]; field_simp; ring
  rw [key, abs_le]
  unfold rne
  split
  · rename_i h
    have h' : 2 * ((n % d : Nat) : ℚ) < d := by exact_mod_cast h
    have : ((n % d : Nat) : ℚ) / d < 1 / 2 := by
      rw [div_lt_iff₀ hd']; linarith
    have : (0 : ℚ) ≤ ((n % d : Nat) : ℚ) / d := by positivity
    constructor <;> linarith
  · split
    · rename_i h1 h
      have h' : (d : ℚ) < 2 * ((n % d : Nat) : ℚ) := by exact_mod_cast h
      have : 1 / 2 < ((n % d : Nat) : ℚ) / d := by
        rw [lt_div_iff₀ hd']; linarith
      have : ((n % d : Nat) : ℚ) / d < 1 := by
        rw [div_lt_iff₀ hd']; linarith
      push_cast
      constructor <;> linarith
    · rename_i h1 h2
      have h' : (d : ℚ) = 2 * ((n % d : Nat) : ℚ) := by
        have : d = 2 * (n % d) := by omega
        exact_mod_cast this
      have : ((n % d : Nat) : ℚ) / d = 1 / 2 := by
        rw [div_eq_iff hd'.ne']; linarith
      have hm : (((n / d) % 2 : Nat) : ℚ) ≤ 1 := by
        have : (n / d) % 2 ≤ 1 := by omega
        exact_mod_cast this
      have hm0 : (0 : ℚ) ≤ (((n / d) % 2 : Nat) : ℚ) := by positivity
      push_cast at hm hm0 ⊢
      constructor <;> linarith
theorem two_zpow_pos (e : Int) : (0 : ℚ) < (2 : ℚ) ^ e := by positivity

theorem normExp_bounds (n d : Nat) (hn : 0 < n) (hd : 0 < d) :
    (2 : ℚ) ^ 52 * (2 : ℚ) ^ normExp n d ≤ (n : ℚ) / d ∧
      (n : ℚ) / d < (2 : ℚ) ^ 53 * (2 : ℚ) ^ normExp n d := by
  have hn' : (0 : ℚ) < n := by exact_mod_cast hn
  have hd' : (0 : ℚ) < d := by exact_mod_cast hd
  obtain ⟨hn1, hn2⟩ := bitLen_bounds n hn
  obtain ⟨hd1, hd2⟩ := bitLen_bounds d hd
  have hn1' : (2 : ℚ) ^ bitLen n ≤ 2 * n := by exact_mod_cast hn1
  have hn2' : (n : ℚ) < (2 : ℚ) ^ bitLen n := by exact_mod_cast hn2
  have hd1' : (2 : ℚ) ^ bitLen d ≤ 2 * d := by exact_mod_cast hd1
  have hd2' : (d : ℚ) < (2 : ℚ) ^ bitLen d := by exact_mod_cast hd2
  set e0 : Int := (bitLen n : Int) - (bitLen d : Int) - 52 with he0
  have hpd : (0 : ℚ) < (2 : ℚ) ^ bitLen d := by positivity
  have hpn : (0 : ℚ) < (2 : ℚ) ^ bitLen n := by positivity
  have hp0 : (2 : ℚ) ^ e0 = (2 : ℚ) ^ bitLen n / (2 : ℚ) ^ bitLen d / 2 ^ 52 := by
    rw [he0, zpow_sub₀ (by norm_num), zpow_sub₀ (by norm_num), zpow_natCast, zpow_natCast]
    norm_cast
  have hq : (n : ℚ) / d * (d : ℚ) = n := by field_simp
  -- the estimate is within a factor two
  have hA : (n : ℚ) / d < 2 ^ 53 * (2 : ℚ) ^ e0 := by
    rw [hp0, div_lt_iff₀ hd']
    have : 2 ^ 53 * ((2 : ℚ) ^ bitLen n / (2 : ℚ) ^ bitLen d / 2 ^ 52) * d
        = (2 : ℚ) ^ bitLen n * (2 * d) / (2 : ℚ) ^ bitLen d := by
      field_simp; ring
    rw [this, lt_div_iff₀ hpd]
    nlinarith
  have hB : 2 ^ 51 * (2 : ℚ) ^ e0 ≤ (n : ℚ) / d := by
    rw [hp0, le_div_iff₀ hd']
    have : 2 ^ 51 * ((2 : ℚ) ^ bitLen n / (2 : ℚ) ^ bitLen d / 2 ^ 52) * d
        = (2 : ℚ) ^ bitLen n * d / (2 * (2 : ℚ) ^ bitLen d) := by
      field_simp; ring
    rw [this, div_le_iff₀ (by positivity)]
    nlinarith
  have hs2 : (0 : ℚ) < ((scale n d e0).2 : ℚ) := by exact_mod_cast scale_snd_pos n d e0 hd
  have hs := scale_ratio n d e0 hd
  have hpe : (0 : ℚ) < (2 : ℚ) ^ e0 := two_zpow_pos e0
  have htest : (scale n d e0).1 < 2 ^ 52 * (scale n d e0).2 ↔
      (n : ℚ) / d < 2 ^ 52 * (2 : ℚ) ^ e0 := by
    have : (scale n d e0).1 < 2 ^ 52 * (scale n d e0).2 ↔
        ((scale n d e0).1 : ℚ) < 2 ^ 52 * ((scale n d e0).2 : ℚ) := by
      constructor
      · intro h; exact_mod_cast h
      · intro h; exact_mod_cast h
    rw [this, hs, mul_lt_mul_right hs2, div_lt_iff₀ hpe]
  unfold normExp
  simp only [← he0]
  split
  · rename_i h
    have h' := htest.1 h
    rw [zpow_sub_one₀ (by norm_num)]
    constructor
    · linarith
    · linarith
  · rename_i h
    have h' : ¬ ((n : ℚ) / d < 2 ^ 52 * (2 : ℚ) ^ e0) := fun hh => h (htest.2 hh)
    exact ⟨not_lt.1 h', hA⟩
theorem ulpExp_eq_normExp (n d : Nat) (hn : 0 < n) (hd : 0 < d)
    (hlo : (2 : ℚ) ^ (-1022 : Int) ≤ (n : ℚ) / d) : ulpExp n d = normExp n d := by
  obtain ⟨_, h2⟩ := normExp_bounds n d hn hd
  have h3 : (2 : ℚ) ^ (-1022 : Int) < (2 : ℚ) ^ (53 : Int) * (2 : ℚ) ^ normExp n d := by
    have h53 : (2 : ℚ) ^ (53 : Int) = (2 : ℚ) ^ (53 : Nat) := zpow_natCast 2 53
    rw [h53]; exact lt_of_le_of_lt hlo h2
  rw [← zpow_add₀ (by norm_num), zpow_lt_zpow_iff_right₀ (by norm_num)] at h3
  unfold ulpExp
  omega

theorem round_spec (neg : Bool) (n d : Nat) (hn : 0 < n) (hd : 0 < d)
    (hlo : (2 : ℚ) ^ (-1022 : Int) ≤ (n : ℚ) / d) (hhi : (n : ℚ) / d < (2 : ℚ) ^ (1023 : Int)) :
    ∃ m e, F64.round neg n d = F64.fin neg m e ∧ 0 < m ∧
      |(m : ℚ) * (2 : ℚ) ^ e - (n : ℚ) / d| ≤ (n : ℚ) / d / 2 ^ 53 := by
  obtain ⟨h1, h2⟩ := normExp_bounds n d hn hd
  have he := ulpExp_eq_normExp n d hn hd hlo
  rw [← he] at h1 h2
  set e := ulpExp n d with hedef
  have hpe : (0 : ℚ) < (2 : ℚ) ^ e := two_zpow_pos e
  -- the exponent is not in the overflow range
  have he971 : e + 1 ≤ 971 := by
    have h3 : (2 : ℚ) ^ (52 : Int) * (2 : ℚ) ^ e < (2 : ℚ) ^ (1023 : Int) := by
      have h52 : (2 : ℚ) ^ (52 : Int) = (2 : ℚ) ^ (52 : Nat) := zpow_natCast 2 52
      rw [h52]; exact lt_of_le_of_lt h1 hhi
    rw [← zpow_add₀ (by norm_num), zpow_lt_zpow_iff_right₀ (by norm_num)] at h3
    omega
  have hs2 : (0 : ℚ) < ((scale n d e).2 : ℚ) := by exact_mod_cast scale_snd_pos n d e hd
  have hs := scale_ratio n d e hd
  have hx : ((scale n d e).1 : ℚ) / ((scale n d e).2 : ℚ) = (n : ℚ) / d / (2 : ℚ) ^ e := by
    rw [hs]; field_simp; ring
  have hr := rne_error (scale n d e).1 (scale n d e).2 (scale_snd_pos n d e hd)
  rw [hx] at hr
  set m := rne (scale n d e).1 (scale n d e).2 with hm
  have hxlo : (2 : ℚ) ^ 52 ≤ (n : ℚ) / d / (2 : ℚ) ^ e := by
    rw [le_div_iff₀ hpe]; exact h1
  have hq : (n : ℚ) / d = (n : ℚ) / d / (2 : ℚ) ^ e * (2 : ℚ) ^ e :=
    (div_mul_cancel₀ _ hpe.ne').symm
  clear_value e m
  have hmpos : 0 < m := by
    have : (0 : ℚ) < (m : ℚ) := by
      have := (abs_le.1 hr).1
      have h52 : (1 : ℚ) ≤ 2 ^ 52 := by norm_num
      linarith
    exact_mod_cast this
  have herr : |(m : ℚ) * (2 : ℚ) ^ e - (n : ℚ) / d| ≤ (n : ℚ) / d / 2 ^ 53 := by
    have h4 : (m : ℚ) * (2 : ℚ) ^ e - (n : ℚ) / d
        = ((m : ℚ) - (n : ℚ) / d / (2 : ℚ) ^ e) * (2 : ℚ) ^ e := by
      rw [sub_mul, ← hq]
    rw [h4, abs_mul, abs_of_pos hpe, le_div_iff₀ (by positivity)]
    have h5 : |(m : ℚ) - (n : ℚ) / d / (2 : ℚ) ^ e| * (2 : ℚ) ^ e ≤ 1 / 2 * (2 : ℚ) ^ e :=
      mul_le_mul_of_nonneg_right hr hpe.le
    nlinarith
  unfold F64.round
  rw [if_neg (by omega)]
  simp only [← hedef, ← hm]
  by_cases hm53 : m = 2 ^ 53
  · rw [if_pos hm53, if_neg (by omega)]
    refine ⟨2 ^ 52, e + 1, rfl, by positivity, ?_⟩
    have : ((2 ^ 52 : Nat) : ℚ) * (2 : ℚ) ^ (e + 1) = (m : ℚ) * (2 : ℚ) ^ e := by
      rw [hm53, zpow_add_one₀ (by norm_num)]
      push_cast
      ring
    rw [this]; exact herr
  · rw [if_neg hm53, if_neg (by omega)]
    exact ⟨m, e, rfl, hmpos, herr⟩

theorem rne_one (n : Nat) : rne n 1 = n := by
  simp [rne, Nat.mod_one]

theorem round_exact (neg : Bool) (x : Nat) (hx : 0 < x) (hx53 : x < 2 ^ 53) :
    ∃ m e, F64.round neg x 1 = F64.fin neg m e ∧ 0 < m ∧ (m : ℚ) * (2 : ℚ) ^ e = x := by
  obtain ⟨h1, h2⟩ := normExp_bounds x 1 hx Nat.one_pos
  have hx' : (1 : ℚ) ≤ x := by exact_mod_cast hx
  have hx53' : (x : ℚ) < 2 ^ 53 := by exact_mod_cast hx53
  have hlo : (2 : ℚ) ^ (-1022 : Int) ≤ (x : ℚ) / (1 : Nat) := by
    have : (2 : ℚ) ^ (-1022 : Int) ≤ 1 := by
      rw [zpow_neg]; apply inv_le_one_of_one_le₀; exact one_le_zpow₀ (by norm_num) (by norm_num)
    simp only [Nat.cast_one, div_one]; linarith
  have he := ulpExp_eq_normExp x 1 hx Nat.one_pos hlo
  rw [← he] at h1 h2
  simp only [Nat.cast_one, div_one] at h1 h2
  set e := ulpExp x 1 with hedef
  have hpe : (0 : ℚ) < (2 : ℚ) ^ e := two_zpow_pos e
  have he0 : e ≤ 0 := by
    have h3 : (2 : ℚ) ^ e < (2 : ℚ) ^ (1 : Int) := by
      rw [zpow_one]; nlinarith
    rw [zpow_lt_zpow_iff_right₀ (by norm_num)] at h3
    omega
  have hs1 : ((scale x 1 e).1 : ℚ) * (2 : ℚ) ^ e = x := by
    have hs := scale_ratio x 1 e Nat.one_pos
    have hs2 : (scale x 1 e).2 = 1 := by
      unfold scale
      split
      · rename_i h
        have : e = 0 := by omega
        simp [this]
      · rfl
    rw [hs, hs2]; simp only [Nat.cast_one, div_one, mul_one]; field_simp
  have hs2 : (scale x 1 e).2 = 1 := by
    unfold scale
    split
    · rename_i h
      have : e = 0 := by omega
      simp [this]
    · rfl
  have hmlt : (scale x 1 e).1 < 2 ^ 53 := by
    have : ((scale x 1 e).1 : ℚ) < 2 ^ 53 := by
      by_contra hcon
      have hge := not_lt.1 hcon
      have := mul_le_mul_of_nonneg_right hge hpe.le
      linarith
    exact_mod_cast this
  have hmpos : 0 < (scale x 1 e).1 := by
    rcases Nat.eq_zero_or_pos (scale x 1 e).1 with h | h
    · rw [h] at hs1; simp at hs1; linarith
    · exact h
  unfold F64.round
  rw [if_neg (by omega)]
  simp only [← hedef, hs2, rne_one]
  rw [if_neg (by omega), if_neg (by omega)]
  exact ⟨_, e, rfl, hmpos, hs1⟩
theorem scale_zero (d : Nat) (e : Int) : (scale 0 d e).1 = 0 := by
  unfold scale
  split <;> simp

theorem round_zero (neg : Bool) (d : Nat) : F64.round neg 0 d = F64.fin neg 0 (-1074) := by
  simp [F64.round]

theorem round_spec_of_ratio (neg : Bool) (n d : Nat) (hd : 0 < d)
    (hlo : (2 : ℚ) ^ (-1022 : Int) ≤ (n : ℚ) / d) (hhi : (n : ℚ) / d < (2 : ℚ) ^ (1023 : Int)) :
    ∃ m e, F64.round neg n d = F64.fin neg m e ∧ 0 < m ∧
      |(m : ℚ) * (2 : ℚ) ^ e - (n : ℚ) / d| ≤ (n : ℚ) / d / 2 ^ 53 := by
  have hn : 0 < n := by
    rcases Nat.eq_zero_or_pos n with h | h
    · subst h
      have : (0 : ℚ) < (2 : ℚ) ^ (-1022 : Int) := two_zpow_pos _
      simp at hlo
      linarith
    · exact h
  exact round_spec neg n d hn hd hlo hhi

theorem two_pow_toNat (k : Int) (hk : 0 ≤ k) : ((2 ^ k.toNat : Nat) : ℚ) = (2 : ℚ) ^ k := by
  obtain ⟨j, rfl⟩ := Int.eq_ofNat_of_zero_le hk
  simp

theorem div_ratio (m m' : Nat) (e e' : Int) :
    ((m * 2 ^ (e - min e e').toNat : Nat) : ℚ) / ((m' * 2 ^ (e' - min e e').toNat : Nat) : ℚ)
      = ((m : ℚ) * (2 : ℚ) ^ e) / ((m' : ℚ) * (2 : ℚ) ^ e') := by
  have h1 : 0 ≤ e - min e e' := by omega
  have h2 : 0 ≤ e' - min e e' := by omega
  rw [Nat.cast_mul, Nat.cast_mul, two_pow_toNat _ h1, two_pow_toNat _ h2,
    zpow_sub₀ (by norm_num), zpow_sub₀ (by norm_num)]
  have hp : (0 : ℚ) < (2 : ℚ) ^ min e e' := two_zpow_pos _
  have hp' : (0 : ℚ) < (2 : ℚ) ^ e' := two_zpow_pos _
  by_cases hm : (m' : ℚ) = 0
  · simp [hm]
  · field_simp

theorem mul_ratio (p : Nat) (x : Int) :
    ((scale p 1 (-x)).1 : ℚ) / ((scale p 1 (-x)).2 : ℚ) = (p : ℚ) * (2 : ℚ) ^ x := by
  have hs := scale_ratio p 1 (-x) Nat.one_pos
  have hs2 : (0 : ℚ) < ((scale p 1 (-x)).2 : ℚ) := by
    exact_mod_cast scale_snd_pos p 1 (-x) Nat.one_pos
  rw [hs, mul_div_assoc, div_self hs2.ne', mul_one, zpow_neg]
  simp

theorem hundred_eq : F64.ofInt 100 = F64.fin false 7036874417766400 (-46) := by decide

theorem percent_spec (k t : Nat) (ht : 0 < t) (ht53 : t < 2 ^ 53) (hk53 : k < 2 ^ 53) :
    ∃ m e, F64.mul (F64.div (F64.round false k 1) (F64.round false t 1)) (F64.ofInt 100)
        = F64.fin false m e ∧
      |(m : ℚ) * (2 : ℚ) ^ e - (k : ℚ) / t * 100| ≤ (k : ℚ) / t * 100 / 2 ^ 51 := by
  obtain ⟨mt, et, hrt, hmt, hvt⟩ := round_exact false t ht ht53
  rw [hrt, hundred_eq]
  have ht' : (1 : ℚ) ≤ t := by exact_mod_cast ht
  have ht53' : (t : ℚ) < 2 ^ 53 := by exact_mod_cast ht53
  rcases Nat.eq_zero_or_pos k with hk | hk
  · subst hk
    refine ⟨0, -1074, ?_, by simp⟩
    rw [round_zero]
    simp only [F64.div, if_neg hmt.ne', Nat.zero_mul, round_zero, F64.mul, Bool.xor_false,
      scale_zero]
  · obtain ⟨mk, ek, hrk, hmk, hvk⟩ := round_exact false k hk hk53
    have hk' : (1 : ℚ) ≤ k := by exact_mod_cast hk
    have hk53' : (k : ℚ) < 2 ^ 53 := by exact_mod_cast hk53
    rw [hrk]
    simp only [F64.div, if_neg hmt.ne', Bool.xor_false]
    have hq := div_ratio mk mt ek et
    rw [hvk, hvt] at hq
    have hqpos : (0 : ℚ) < (k : ℚ) / t := by positivity
    have hqlo : (1 : ℚ) / 2 ^ 53 ≤ (k : ℚ) / t := by
      rw [div_le_div_iff₀ (by positivity) (by positivity)]
      nlinarith
    have hqhi : (k : ℚ) / t < 2 ^ 53 := by
      rw [div_lt_iff₀ (by positivity)]
      nlinarith
    have hdpos : 0 < mt * 2 ^ (et - min ek et).toNat := by positivity
    have z1022 : (2 : ℚ) ^ (-1022 : Int) ≤ 1 / 2 ^ 60 := by
      have h := zpow_le_zpow_right₀ (show (1 : ℚ) ≤ 2 by norm_num) (show (-1022 : Int) ≤ -60 by norm_num)
      have h60 : (2 : ℚ) ^ (-60 : Int) = 1 / 2 ^ 60 := by
        rw [zpow_neg, one_div]; exact congrArg _ (zpow_natCast 2 60)
      rw [← h60]; exact h
    have z1023 : (2 : ℚ) ^ 60 ≤ (2 : ℚ) ^ (1023 : Int) := by
      have h := zpow_le_zpow_right₀ (show (1 : ℚ) ≤ 2 by norm_num) (show (60 : Int) ≤ 1023 by norm_num)
      have h60 : (2 : ℚ) ^ (60 : Int) = 2 ^ 60 := zpow_natCast 2 60
      rw [← h60]; exact h
    obtain ⟨m1, e1, hr1, hm1, herr1⟩ := round_spec_of_ratio false _ _ hdpos
      (by
        rw [hq]
        refine le_trans z1022 (le_trans ?_ hqlo)
        norm_num)
      (by
        rw [hq]
        refine lt_of_lt_of_le (lt_trans hqhi ?_) z1023
        norm_num)
    rw [hq] at herr1
    rw [hr1]
    simp only [F64.mul, Bool.xor_false]
    have hq2 := mul_ratio (m1 * 7036874417766400) (e1 + -46)
    have hval : ((m1 * 7036874417766400 : Nat) : ℚ) * (2 : ℚ) ^ (e1 + -46)
        = (m1 : ℚ) * (2 : ℚ) ^ e1 * 100 := by
      rw [zpow_add₀ (by norm_num)]
      have : (2 : ℚ) ^ (-46 : Int) = 1 / 70368744177664 := by
        rw [zpow_neg, one_div]
        have h46 : (2 : ℚ) ^ (46 : Int) = 2 ^ 46 := zpow_natCast 2 46
        rw [h46]; norm_num
      rw [this]
      push_cast
      ring
    rw [hval] at hq2
    set v1 : ℚ := (m1 : ℚ) * (2 : ℚ) ^ e1 with hv1
    have hv1lo : (k : ℚ) / t * (1 - 1 / 2 ^ 53) ≤ v1 := by
      have := (abs_le.1 herr1).1
      linarith
    have hv1hi : v1 ≤ (k : ℚ) / t * (1 + 1 / 2 ^ 53) := by
      have := (abs_le.1 herr1).2
      linarith
    have hs2pos : 0 < (scale (m1 * 7036874417766400) 1 (-(e1 + -46))).2 :=
      scale_snd_pos _ _ _ Nat.one_pos
    obtain ⟨m2, e2, hr2, hm2, herr2⟩ := round_spec_of_ratio false _ _ hs2pos
      (by
        rw [hq2]
        refine le_trans z1022 ?_
        norm_num at hqlo hv1lo ⊢
        linarith)
      (by
        rw [hq2]
        refine lt_of_lt_of_le ?_ z1023
        norm_num at hqhi hv1hi ⊢
        linarith)
    rw [hq2] at herr2
    refine ⟨m2, e2, hr2, ?_⟩
    set v2 : ℚ := (m2 : ℚ) * (2 : ℚ) ^ e2 with hv2
    set q : ℚ := (k : ℚ) / t with hqdef
    have h2lo := (abs_le.1 herr2).1
    have h2hi := (abs_le.1 herr2).2
    rw [abs_le]
    norm_num at hv1lo hv1hi h2lo h2hi ⊢
    constructor
    · linarith
    · linarith
theorem round_ne_nan (neg : Bool) (n d : Nat) : F64.round neg n d ≠ F64.nan := by
  unfold F64.round
  split
  · simp
  · dsimp only
    split
    · split <;> simp
    · split <;> simp

theorem wrapInt64_of_range (x : Int) (h0 : 0 ≤ x) (h1 : x < 2 ^ 53) : wrapInt64 x = x := by
  unfold wrapInt64
  have : (2 : Int) ^ 53 = 9007199254740992 := by norm_num
  have : (2 : Int) ^ 63 = 9223372036854775808 := by norm_num
  have : (2 : Int) ^ 64 = 18446744073709551616 := by norm_num
  omega

theorem ofInt_natCast (n : Nat) : F64.ofInt (n : Int) = F64.round false n 1 := by
  have h : ¬ ((n : Int) < 0) := by omega
  simp only [F64.ofInt, decide_eq_false h, Int.natAbs_ofNat]

theorem ofInt_exact (n : Nat) (h : n < 2 ^ 53) :
    ∃ m e, F64.ofInt (n : Int) = F64.fin false m e ∧ (m : ℚ) * (2 : ℚ) ^ e = n := by
  rw [ofInt_natCast]
  rcases Nat.eq_zero_or_pos n with h0 | h0
  · subst h0
    exact ⟨0, -1074, round_zero _ _, by simp⟩
  · obtain ⟨m, e, h1, _, h2⟩ := round_exact false n h0 h
    exact ⟨m, e, h1, h2⟩

theorem toRat_fin_false (m : Nat) (e : Int) :
    (F64.fin false m e).toRat = (m : ℚ) * (2 : ℚ) ^ e := by
  simp [F64.toRat]

theorem getStats_fst (c : coverage) : (getStats c).1 =
    F64.mul (F64.div (F64.ofInt (wrapInt64 (c.selfCovered + c.childCovered)))
      (F64.ofInt (wrapInt64 (c.selfStatements + c.childStatements)))) (F64.ofInt 100) := rfl

theorem getStats_snd (c : coverage) : (getStats c).2 =
    F64.ofInt (wrapInt64 (c.selfStatements + c.childStatements)) := rfl

theorem getStats_general (c : coverage)
    (hpos : 0 < c.selfStatements + c.childStatements)
    (hstmts : c.selfStatements + c.childStatements < 2 ^ 53)
    (hcov0 : 0 ≤ c.selfCovered + c.childCovered)
    (hcov : c.selfCovered + c.childCovered < 2 ^ 53) :
    (getStats c).2.isFinite = true ∧
    (getStats c).2.toRat = ((c.selfStatements + c.childStatements : Int) : ℚ) ∧
    (getStats c).1.isFinite = true ∧
    |(getStats c).1.toRat - exactPercent c| ≤ exactPercent c / 2 ^ 51 := by
  obtain ⟨t, ht⟩ := Int.eq_ofNat_of_zero_le hpos.le
  obtain ⟨k, hk⟩ := Int.eq_ofNat_of_zero_le hcov0
  have ht53 : t < 2 ^ 53 := by
    have : ((t : Nat) : Int) < 2 ^ 53 := by rw [← ht]; exact hstmts
    exact_mod_cast this
  have hk53 : k < 2 ^ 53 := by
    have : ((k : Nat) : Int) < 2 ^ 53 := by rw [← hk]; exact hcov
    exact_mod_cast this
  have htpos : 0 < t := by
    have : (0 : Int) < (t : Int) := by rw [← ht]; exact hpos
    exact_mod_cast this
  have hw1 := wrapInt64_of_range _ hpos.le hstmts
  have hw2 := wrapInt64_of_range _ hcov0 hcov
  obtain ⟨mt, et, hot, hvt⟩ := ofInt_exact t ht53
  obtain ⟨m, e, hp, herr⟩ := percent_spec k t htpos ht53 hk53
  have hs2 : (getStats c).2 = F64.fin false mt et := by
    rw [getStats_snd, hw1, ht, hot]
  have hs1 : (getStats c).1 = F64.fin false m e := by
    rw [getStats_fst, hw1, hw2, ht, hk, ofInt_natCast, ofInt_natCast, hp]
  have hex : exactPercent c = (k : ℚ) / t * 100 := by
    simp only [exactPercent, ht, hk, Int.cast_natCast]
  rw [hs1, hs2, hex, toRat_fin_false, toRat_fin_false, hvt, ht]
  exact ⟨rfl, by simp, rfl, herr⟩

theorem getStats_zero_general (c : coverage) (h : c.selfStatements + c.childStatements = 0) :
    (getStats c).1.isFinite = false ∧
    (c.selfCovered + c.childCovered = 0 → (getStats c).1 = F64.nan) := by
  have hz : F64.ofInt (wrapInt64 0) = F64.fin false 0 (-1074) := by decide
  constructor
  · rw [getStats_fst, h, hz, hundred_eq]
    have hnn := round_ne_nan (decide (wrapInt64 (c.selfCovered + c.childCovered) < 0))
      (wrapInt64 (c.selfCovered + c.childCovered)).natAbs 1
    unfold F64.ofInt
    cases hr : F64.round (decide (wrapInt64 (c.selfCovered + c.childCovered) < 0))
      (wrapInt64 (c.selfCovered + c.childCovered)).natAbs 1 with
    | nan => exact absurd hr hnn
    | inf s => simp [F64.div, F64.mul, F64.isFinite]
    | fin s m e =>
      by_cases hm : m = 0
      · simp [F64.div, F64.mul, F64.isFinite, hm]
      · simp [F64.div, F64.mul, F64.isFinite, hm]
  · intro hc
    rw [getStats_fst, h, hc, hz, hundred_eq]
    simp [F64.div, F64.mul]
theorem printCoverageLoop_spec (coverageData : coverageByPackage) (minCoverage : F64) :
    ∀ (pkgs : List String) (out : List Line) (ok : Bool),
      (∀ p ∈ pkgs, ∃ c, coverageData.lookup p = some c) →
      ∃ rows ok', printCoverageLoop coverageData minCoverage pkgs out ok = some (out ++ rows, ok') ∧
        List.Forall₂ (fun p r => ∃ c, coverageData.lookup p = some c ∧ r = rowOf minCoverage p c)
          pkgs rows ∧
        (ok' = true ↔ ok = true ∧
          ∀ p ∈ pkgs, ∀ c, coverageData.lookup p = some c →
            F64.lt (getStats c).1 minCoverage = false)
  | [], out, ok, _ => ⟨[], ok, by simp [printCoverageLoop], List.Forall₂.nil, by simp⟩
  | p :: rest, out, ok, h => by
    obtain ⟨c, hc⟩ := h p (List.mem_cons_self _ _)
    have hrest : ∀ q ∈ rest, ∃ c, coverageData.lookup q = some c :=
      fun q hq => h q (List.mem_cons_of_mem _ hq)
    by_cases hlt : F64.lt (getStats c).1 minCoverage = true
    · obtain ⟨rows, ok', h1, h2, h3⟩ := printCoverageLoop_spec coverageData minCoverage rest
        (out ++ [Line.row Stream.stderr (getStats c).1 (getStats c).2 p]) false hrest
      refine ⟨Line.row Stream.stderr (getStats c).1 (getStats c).2 p :: rows, ok', ?_, ?_, ?_⟩
      · simp only [printCoverageLoop, hc, hlt, if_true]
        rw [h1]; simp
      · exact List.Forall₂.cons ⟨c, hc, by simp [rowOf, hlt]⟩ h2
      · constructor
        · intro hok
          have := h3.1 hok
          simp at this
        · rintro ⟨_, hall⟩
          have := hall p (List.mem_cons_self _ _) c hc
          rw [hlt] at this
          exact absurd this (by simp)
    · have hlt' : F64.lt (getStats c).1 minCoverage = false := by
        cases hb : F64.lt (getStats c).1 minCoverage
        · rfl
        · exact absurd hb hlt
      obtain ⟨rows, ok', h1, h2, h3⟩ := printCoverageLoop_spec coverageData minCoverage rest
        (out ++ [Line.row Stream.stdout (getStats c).1 (getStats c).2 p]) ok hrest
      refine ⟨Line.row Stream.stdout (getStats c).1 (getStats c).2 p :: rows, ok', ?_, ?_, ?_⟩
      · simp only [printCoverageLoop, hc, hlt', Bool.false_eq_true, if_false]
        rw [h1]; simp
      · exact List.Forall₂.cons ⟨c, hc, by simp [rowOf, hlt']⟩ h2
      · rw [h3]
        constructor
        · rintro ⟨hok, hall⟩
          refine ⟨hok, ?_⟩
          intro q hq c' hc'
          rcases List.mem_cons.1 hq with rfl | hq
          · rw [hc] at hc'; cases hc'; exact hlt'
          · exact hall q hq c' hc'
        · rintro ⟨hok, hall⟩
          exact ⟨hok, fun q hq c' hc' => hall q (List.mem_cons_of_mem _ hq) c' hc'⟩

theorem printCoverage_general (pkgs : List String) (coverageData : coverageByPackage)
    (minCoverage : F64) (h : ∀ p ∈ pkgs, ∃ c, coverageData.lookup p = some c) :
    ∃ rows ok, printCoverage pkgs coverageData minCoverage
        = some (Line.header :: rows ++ [Line.blank], ok) ∧
      List.Forall₂ (fun p r => ∃ c, coverageData.lookup p = some c ∧ r = rowOf minCoverage p c)
        pkgs rows ∧
      (ok = true ↔ ∀ p ∈ pkgs, ∀ c, coverageData.lookup p = some c →
        F64.lt (getStats c).1 minCoverage = false) := by
  obtain ⟨rows, ok, h1, h2, h3⟩ :=
    printCoverageLoop_spec coverageData minCoverage pkgs [Line.header] true h
  refine ⟨rows, ok, ?_, h2, ?_⟩
  · simp only [printCoverage, h1]
    simp
  · rw [h3]; simp
theorem foldl_keys (coverageData : coverageByPackage) (acc : List String) :
    coverageData.foldl (fun output entry => output ++ [entry.1]) acc
      = acc ++ coverageData.keys := by
  induction coverageData generalizing acc with
  | nil => simp [coverageByPackage.keys]
  | cons x xs ih =>
    simp only [List.foldl_cons, ih, coverageByPackage.keys, List.map_cons]
    simp

theorem getSortedPackages_eq (coverageData : coverageByPackage) :
    getSortedPackages coverageData = coverageData.keys.insertionSort (· ≤ ·) := by
  simp [getSortedPackages, sortStrings, foldl_keys]

theorem getSortedPackages_perm (coverageData : coverageByPackage) :
    (getSortedPackages coverageData).Perm coverageData.keys := by
  rw [getSortedPackages_eq]
  exact List.perm_insertionSort _ _

theorem getSortedPackages_sorted (coverageData : coverageByPackage) :
    (getSortedPackages coverageData).Sorted (· ≤ ·) := by
  rw [getSortedPackages_eq]
  exact List.sorted_insertionSort _ _

theorem getSortedPackages_general (coverageData : coverageByPackage)
    (hmap : coverageData.keys.Nodup) :
    (∀ k, k ∈ getSortedPackages coverageData ↔ k ∈ coverageData.keys) ∧
    (∀ k ∈ coverageData.keys, (getSortedPackages coverageData).count k = 1) ∧
    (getSortedPackages coverageData).Sorted (· < ·) ∧
    (∀ other : coverageByPackage, other.Perm coverageData →
      getSortedPackages other = getSortedPackages coverageData) := by
  have hperm := getSortedPackages_perm coverageData
  have hsorted := getSortedPackages_sorted coverageData
  have hnd : (getSortedPackages coverageData).Nodup := hperm.nodup_iff.2 hmap
  refine ⟨fun k => hperm.mem_iff, ?_, hsorted.lt_of_le hnd, ?_⟩
  · intro k hk
    exact List.count_eq_one_of_mem hnd (hperm.mem_iff.2 hk)
  · intro other hother
    have hk : other.keys.Perm coverageData.keys := hother.map _
    exact List.eq_of_perm_of_sorted
      (((getSortedPackages_perm other).trans hk).trans hperm.symm)
      (getSortedPackages_sorted other) hsorted
mutual
theorem walk_invariant {σ : Type} (walkFn : σ → String → Bool → Bool → σ × Option Err)
    (I : σ → Prop) (hfn : ∀ s p d e, I s → I (walkFn s p d e).1) :
    ∀ (node : FsNode) (path : String) (s : σ), I s → I (walk walkFn path node s).1
  | .file, path, s, h => by
    simp only [walk]; exact hfn _ _ _ _ h
  | .broken, path, s, h => by
    simp only [walk]; exact hfn _ _ _ _ h
  | .dir readable entries, path, s, h => by
    simp only [walk]
    split
    · exact hfn _ _ _ _ h
    · exact walkEntries_invariant walkFn I hfn entries path _ (hfn _ _ _ _ h)
theorem walkEntries_invariant {σ : Type} (walkFn : σ → String → Bool → Bool → σ × Option Err)
    (I : σ → Prop) (hfn : ∀ s p d e, I s → I (walkFn s p d e).1) :
    ∀ (entries : List (String × FsNode)) (path : String) (s : σ), I s →
      I (walk.walkEntries walkFn path entries s).1
  | [], path, s, h => by
    simp only [walk.walkEntries]; exact h
  | (name, .broken) :: rest, path, s, h => by
    simp only [walk.walkEntries]
    split
    · exact hfn _ _ _ _ h
    · exact walkEntries_invariant walkFn I hfn rest path _ (hfn _ _ _ _ h)
  | (name, .file) :: rest, path, s, h => by
    simp only [walk.walkEntries]
    have h1 := walk_invariant walkFn I hfn .file (Join path name) s h
    split
    · exact h1
    · exact walkEntries_invariant walkFn I hfn rest path _ h1
  | (name, .dir readable entries) :: rest, path, s, h => by
    simp only [walk.walkEntries]
    have h1 := walk_invariant walkFn I hfn (.dir readable entries) (Join path name) s h
    split
    · exact h1
    · exact walkEntries_invariant walkFn I hfn rest path _ h1
end
theorem splitSep_ne_nil (cs : List Char) : splitSep cs ≠ [] := by
  induction cs with
  | nil => simp [splitSep]
  | cons c cs ih =>
    simp only [splitSep]
    split
    · simp
    · split <;> simp

theorem splitSep_single (s : List Char) (h : '/' ∉ s) : splitSep s = [s] := by
  induction s with
  | nil => rfl
  | cons c cs ih =>
    have hc : c ≠ '/' := fun e => h (by simp [e])
    have hcs : '/' ∉ cs := fun e => h (List.mem_cons_of_mem _ e)
    simp [splitSep, hc, ih hcs]

theorem splitSep_append (s r : List Char) (h : '/' ∉ s) :
    splitSep (s ++ '/' :: r) = s :: splitSep r := by
  induction s with
  | nil => simp [splitSep]
  | cons c cs ih =>
    have hc : c ≠ '/' := fun e => h (by simp [e])
    have hcs : '/' ∉ cs := fun e => h (List.mem_cons_of_mem _ e)
    simp [splitSep, hc, ih hcs]

theorem joinSep_cons (s : List Char) (segs : List (List Char)) (h : segs ≠ []) :
    joinSep (s :: segs) = s ++ '/' :: joinSep segs := by
  cases segs with
  | nil => exact absurd rfl h
  | cons t rest => rfl

theorem joinSep_snoc (parents : List (List Char)) (name : List Char) (h : parents ≠ []) :
    joinSep (parents ++ [name]) = joinSep parents ++ '/' :: name := by
  induction parents with
  | nil => exact absurd rfl h
  | cons s rest ih =>
    cases rest with
    | nil => rfl
    | cons t rest' =>
      have := ih (by simp)
      simp only [List.cons_append] at this ⊢
      rw [joinSep_cons s _ (by simp), this, joinSep_cons s _ (by simp)]
      simp

theorem splitSep_joinSep (segs : List (List Char)) (hne : segs ≠ [])
    (h : ∀ s ∈ segs, '/' ∉ s) : splitSep (joinSep segs) = segs := by
  induction segs with
  | nil => exact absurd rfl hne
  | cons s rest ih =>
    cases rest with
    | nil => simpa [joinSep] using splitSep_single s (h s (by simp))
    | cons t rest' =>
      rw [joinSep_cons s _ (by simp), splitSep_append _ _ (h s (by simp)),
        ih (by simp) (fun x hx => h x (List.mem_cons_of_mem _ hx))]

theorem cleanStep_valid (rooted : Bool) (stack : List (List Char)) (s : List Char)
    (h : validName s) : cleanStep rooted stack s = s :: stack := by
  obtain ⟨h1, _, h3, h4⟩ := h
  simp [cleanStep, h1, h3, h4]

theorem foldl_cleanStep_valid (rooted : Bool) (segs : List (List Char)) :
    ∀ stack, (∀ s ∈ segs, validName s) →
      segs.foldl (cleanStep rooted) stack = segs.reverse ++ stack := by
  induction segs with
  | nil => intro stack _; rfl
  | cons s rest ih =>
    intro stack h
    rw [List.foldl_cons, cleanStep_valid rooted stack s (h s (by simp)),
      ih _ (fun x hx => h x (List.mem_cons_of_mem _ hx))]
    simp

theorem takeWhile_noSep (l rest : List Char) (h : '/' ∉ l) :
    (l ++ '/' :: rest).takeWhile (· ≠ '/') = l := by
  induction l with
  | nil => simp
  | cons c cs ih =>
    have hc : c ≠ '/' := fun e => h (by simp [e])
    have hcs : '/' ∉ cs := fun e => h (List.mem_cons_of_mem _ e)
    have := ih hcs
    simp [List.takeWhile_cons, hc] at this ⊢
    exact this

theorem takeWhile_noSep_all (l : List Char) (h : '/' ∉ l) :
    l.takeWhile (· ≠ '/') = l := by
  induction l with
  | nil => simp
  | cons c cs ih =>
    have hc : c ≠ '/' := fun e => h (by simp [e])
    have hcs : '/' ∉ cs := fun e => h (List.mem_cons_of_mem _ e)
    simp [List.takeWhile, hc]
    intro x hx e
    exact hcs (e ▸ hx)

theorem lastElem_append (pre name : List Char) (h : '/' ∉ name) :
    lastElem (pre ++ '/' :: name) = name := by
  unfold lastElem
  have hr : '/' ∉ name.reverse := by simpa using h
  have : (pre ++ '/' :: name).reverse = name.reverse ++ '/' :: pre.reverse := by simp
  rw [this, takeWhile_noSep _ _ hr, List.reverse_reverse]

theorem lastElem_noSep (name : List Char) (h : '/' ∉ name) : lastElem name = name := by
  unfold lastElem
  have hr : '/' ∉ name.reverse := by simpa using h
  rw [takeWhile_noSep_all _ hr, List.reverse_reverse]

theorem joinSep_head (segs : List (List Char)) (hne : segs ≠ [])
    (h : ∀ s ∈ segs, validName s) :
    joinSep segs ≠ [] ∧ (joinSep segs).head? ≠ some '/' := by
  cases segs with
  | nil => exact absurd rfl hne
  | cons s rest =>
    obtain ⟨h1, h2, _, _⟩ := h s (by simp)
    cases s with
    | nil => exact absurd rfl h1
    | cons c cs =>
      have hc : c ≠ '/' := fun e => h2 (by simp [e])
      cases rest with
      | nil => simp [joinSep, hc]
      | cons t rest' => simp [joinSep, hc]
theorem Split_entry_snd (parents : List (List Char)) (name : List Char)
    (h : ∀ s ∈ parents ++ [name], validName s) :
    (Split ⟨joinSep (parents ++ [name])⟩).2 = ⟨name⟩ := by
  have hn : '/' ∉ name := (h name (by simp)).2.1
  simp only [Split]
  congr 1
  by_cases hp : parents = []
  · subst hp; simpa [joinSep] using lastElem_noSep name hn
  · rw [joinSep_snoc _ _ hp]; exact lastElem_append _ _ hn

theorem Split_entry_fst (parents : List (List Char)) (name : List Char) (hp : parents ≠ [])
    (h : ∀ s ∈ parents ++ [name], validName s) :
    (Split ⟨joinSep (parents ++ [name])⟩).1 = ⟨joinSep parents ++ ['/']⟩ := by
  have hn : '/' ∉ name := (h name (by simp)).2.1
  simp only [Split]
  congr 1
  rw [joinSep_snoc _ _ hp, lastElem_append _ _ hn]
  have : joinSep parents ++ '/' :: name = (joinSep parents ++ ['/']) ++ name := by simp
  rw [this, List.length_append, Nat.add_sub_cancel, List.take_left']
  rfl

theorem Split_top_fst (name : List Char) (h : validName name) :
    (Split ⟨joinSep [name]⟩).1 = "" := by
  have hn : '/' ∉ name := h.2.1
  simp only [Split, joinSep, lastElem_noSep name hn, Nat.sub_self, List.take_zero]

theorem Clean_dirPart (parents : List (List Char)) (hp : parents ≠ [])
    (h : ∀ s ∈ parents, validName s) :
    Clean ⟨joinSep parents ++ ['/']⟩ = ⟨joinSep parents⟩ := by
  obtain ⟨h1, h2⟩ := joinSep_head parents hp h
  have hsplit : splitSep (joinSep parents ++ ['/']) = parents ++ [[]] := by
    rw [← joinSep_snoc _ _ hp]
    apply splitSep_joinSep _ (by simp)
    intro s hs
    rcases List.mem_append.1 hs with hs | hs
    · exact (h s hs).2.1
    · simp at hs; subst hs; simp
  have hhead : (joinSep parents ++ ['/']).head? ≠ some '/' := by
    cases hj : joinSep parents with
    | nil => exact absurd hj h1
    | cons c cs => rw [hj] at h2; simpa using h2
  have hne : joinSep parents ++ ['/'] ≠ [] := by simp
  have helems : cleanElems false (joinSep parents ++ ['/']) = parents := by
    unfold cleanElems
    rw [hsplit, List.foldl_append, foldl_cleanStep_valid false parents [] h]
    simp [cleanStep]
  unfold Clean
  rw [if_neg hne, if_neg hhead, helems, if_neg hp]

theorem isPrefixOf_self_append (a b : List Char) : a.isPrefixOf (a ++ b) = true := by
  rw [List.isPrefixOf_iff_prefix]; exact List.prefix_append a b

theorem getPathEnd_entry (parents : List (List Char)) (name : List Char) (hp : parents ≠ [])
    (h : ∀ s ∈ parents ++ [name], validName s) :
    getPathEnd ⟨joinSep (parents ++ [name])⟩ = ⟨'/' :: name⟩ := by
  have hpar : ∀ s ∈ parents, validName s := fun s hs => h s (List.mem_append_left _ hs)
  unfold getPathEnd Dir
  rw [Split_entry_fst parents name hp h, Clean_dirPart parents hp hpar, joinSep_snoc _ _ hp]
  simp [TrimPrefix, HasPrefix, isPrefixOf_self_append]

theorem sep_pair_not_isPrefixOf (l : List Char) (hl : '/' ∉ l) (x : Char) :
    ['/', x].isPrefixOf l = false := by
  cases l with
  | nil => rfl
  | cons a as =>
    have ha : ¬ ('/' = a) := fun e => hl (e ▸ List.mem_cons_self _ _)
    simp [List.isPrefixOf, ha]

theorem getPathEnd_top (name : List Char) (h : validName name) :
    hiddenOrSystemDirs (getPathEnd ⟨joinSep [name]⟩) = false := by
  have hn : '/' ∉ name := h.2.1
  unfold getPathEnd Dir
  rw [Split_top_fst name h]
  have hc : Clean "" = "." := by decide
  rw [hc]
  have hend : '/' ∉ (TrimPrefix ⟨joinSep [name]⟩ ".").data := by
    unfold TrimPrefix
    split
    · intro hmem
      exact hn (List.mem_of_mem_drop hmem)
    · exact hn
  unfold hiddenOrSystemDirs HasPrefix
  have e1 : "/.".data = ['/', '.'] := rfl
  have e2 : "/_".data = ['/', '_'] := rfl
  rw [e1, e2, sep_pair_not_isPrefixOf _ hend, sep_pair_not_isPrefixOf _ hend]
  rfl
theorem checkForGo_err (wd : String) (importDir : String → ImportResult) (verbose : Bool)
    (log : List LogMsg) (path : String) :
    (checkForGo wd importDir verbose log path true).2.1 = some Err.SkipDir ↔
      ((HasPrefix (Split path).2 "." = true ∨ HasPrefix (Split path).2 "_" = true ∨
          (Split path).2 = "testdata") ∨
        hiddenOrSystemDirs (getPathEnd path) = true) := by
  unfold checkForGo
  simp only [Bool.not_true, Bool.false_eq_true, if_false]
  by_cases h1 : (HasPrefix (Split path).2 "." || HasPrefix (Split path).2 "_" ||
      decide ((Split path).2 = "testdata")) = true
  · rw [if_pos h1]
    simp only [Bool.or_eq_true, decide_eq_true_eq] at h1
    constructor
    · intro _
      left
      rcases h1 with (h | h) | h
      · exact Or.inl h
      · exact Or.inr (Or.inl h)
      · exact Or.inr (Or.inr h)
    · intro _; rfl
  · rw [if_neg h1]
    simp only [Bool.or_eq_true, decide_eq_true_eq] at h1
    by_cases h2 : hiddenOrSystemDirs (getPathEnd path) = true
    · rw [if_pos h2]
      exact ⟨fun _ => Or.inr h2, fun _ => rfl⟩
    · rw [if_neg h2]
      constructor
      · intro h
        exfalso
        split at h
        · simp at h
        · split at h <;> simp at h
      · rintro ((h | h | h) | h)
        · exact absurd (Or.inl (Or.inl h)) h1
        · exact absurd (Or.inl (Or.inr h)) h1
        · exact absurd (Or.inr h) h1
        · exact absurd h h2

theorem hidden_of_visited (path : String) (hv : Visited path)
    (h : hiddenOrSystemDirs (getPathEnd path) = true) :
    HasPrefix (Split path).2 "." = true ∨ HasPrefix (Split path).2 "_" = true := by
  cases hv with
  | root => exact absurd h (by decide)
  | entry parents name hvalid =>
    by_cases hp : parents = []
    · subst hp
      have := getPathEnd_top name (hvalid name (by simp))
      simp only [List.nil_append] at h
      rw [this] at h
      exact absurd h (by simp)
    · rw [getPathEnd_entry parents name hp hvalid] at h
      rw [Split_entry_snd parents name hvalid]
      simp only [hiddenOrSystemDirs, HasPrefix, Bool.or_eq_true] at h ⊢
      simpa [List.isPrefixOf] using h

theorem checkForGo_skip_general (wd : String) (importDir : String → ImportResult)
    (verbose : Bool) (log : List LogMsg) (path : String) (hv : Visited path) :
    (checkForGo wd importDir verbose log path true).2.1 = some Err.SkipDir ↔
      (HasPrefix (Split path).2 "." = true ∨ HasPrefix (Split path).2 "_" = true ∨
        (Split path).2 = "testdata") := by
  rw [checkForGo_err]
  constructor
  · rintro (h | h)
    · exact h
    · rcases hidden_of_visited path hv h with h | h
      · exact Or.inl h
      · exact Or.inr (Or.inl h)
  · exact Or.inl

theorem checkForCoverage_general (wd path : String) (isDir : Bool) :
    ((checkForCoverage wd path isDir = (GetCurrentDir wd ++ path, none) ∧
        GetCurrentDir wd ++ path ≠ "") ↔
      (isDir = false ∧ HasPrefix (Split path).2 "." = false ∧
        HasPrefix (Split path).2 "_" = false ∧ HasSuffix path ".cov" = true)) ∧
    ((isDir = false ∧ HasPrefix (Split path).2 "." = false ∧
        HasPrefix (Split path).2 "_" = false ∧ HasSuffix path ".cov" = true) ∨
      checkForCoverage wd path isDir = ("", none)) := by
  have hne : GetCurrentDir wd ++ path ≠ "" := by
    intro h
    have := congrArg String.data h
    simp [GetCurrentDir, String.data_append] at this
  unfold checkForCoverage
  cases isDir
  · cases h1 : HasPrefix (Split path).2 "."
    · cases h2 : HasPrefix (Split path).2 "_"
      · cases h3 : HasSuffix path ".cov"
        · simp [h1, h2, h3, Ne.symm hne]
        · simp [h1, h2, h3, hne]
      · simp [h1, h2, Ne.symm hne]
    · simp [h1, Ne.symm hne]
  · simp [Ne.symm hne]
theorem finderWalkFn_found (wd : String) (importDir : String → ImportResult) (verbose : Bool)
    (searchFor : mode) (s : FinderState) (path : String) (isDir err : Bool)
    (h : ∀ p ∈ s.found, Contains p "/vendor/" = false) :
    ∀ p ∈ (finderWalkFn wd importDir verbose searchFor s path isDir err).1.found,
      Contains p "/vendor/" = false := by
  unfold finderWalkFn
  split
  · exact h
  · dsimp only
    split
    · exact h
    · split
      · split
        · exact h
        · rename_i hv
          intro p hp
          simp only [List.mem_append, List.mem_singleton] at hp
          rcases hp with hp | hp
          · exact h p hp
          · subst hp
            simpa using hv
      · exact h

theorem Walk_invariant {σ : Type} (walkFn : σ → String → Bool → Bool → σ × Option Err)
    (I : σ → Prop) (hfn : ∀ s p d e, I s → I (walkFn s p d e).1)
    (root : String) (tree : FsNode) (s : σ) (h : I s) : I (Walk root tree walkFn s).1 := by
  unfold Walk
  dsimp only
  split
  · exact walk_invariant walkFn I hfn tree root s h
  · exact walk_invariant walkFn I hfn tree root s h

theorem finder_none (w : World) (basePath : String) (searchFor : mode)
    (hb : w.baseWd = none) :
    finder w basePath searchFor = ⟨[], some (Err.failure "chdir"), [], [basePath]⟩ := by
  simp [finder, hb]

theorem finder_some (w : World) (basePath : String) (searchFor : mode) (wd : String)
    (hb : w.baseWd = some wd) :
    finder w basePath searchFor =
      ⟨(Walk "./" w.tree (finderWalkFn wd w.importDir w.verbose searchFor) ⟨[], []⟩).1.found,
        none,
        (Walk "./" w.tree (finderWalkFn wd w.importDir w.verbose searchFor) ⟨[], []⟩).1.log,
        [basePath, GetCurrentDir w.getwd]⟩ := by
  simp [finder, hb]

theorem finder_no_vendor (w : World) (basePath : String) (searchFor : mode) :
    ∀ p ∈ (finder w basePath searchFor).paths, Contains p "/vendor/" = false := by
  cases hb : w.baseWd with
  | none =>
    rw [finder_none w basePath searchFor hb]
    intro p hp; simp at hp
  | some wd =>
    rw [finder_some w basePath searchFor wd hb]
    exact Walk_invariant (finderWalkFn wd w.importDir w.verbose searchFor)
      (fun s => ∀ p ∈ s.found, Contains p "/vendor/" = false)
      (fun s p d e hs => finderWalkFn_found _ _ _ _ s p d e hs) "./" w.tree ⟨[], []⟩
      (fun p hp => by simp at hp)

theorem contains_vendor (wd pre rest : String) (hpre : pre = "" ∨ HasSuffix pre "/" = true) :
    Contains (GetCurrentDir wd ++ (pre ++ "vendor/thirdparty/" ++ rest)) "/vendor/" = true := by
  have e1 : "/vendor/".data = ['/', 'v', 'e', 'n', 'd', 'o', 'r', '/'] := rfl
  have e2 : "vendor/thirdparty/".data
      = ['v', 'e', 'n', 'd', 'o', 'r', '/'] ++ "thirdparty/".data := rfl
  have e3 : "/".data = ['/'] := rfl
  simp only [Contains, decide_eq_true_eq, GetCurrentDir, String.data_append, e1, e2, e3]
  rcases hpre with h | h
  · subst h
    refine ⟨wd.data, "thirdparty/".data ++ rest.data, ?_⟩
    simp
  · simp only [HasSuffix, List.isSuffixOf_iff_suffix, e3] at h
    obtain ⟨t, ht⟩ := h
    refine ⟨wd.data ++ ['/'] ++ t, "thirdparty/".data ++ rest.data, ?_⟩
    rw [← ht]
    simp

theorem LogWhenVerbose_mem (verbose : Bool) (log : List LogMsg) (msg m : LogMsg)
    (h : m ∈ LogWhenVerbose verbose log msg) : m ∈ log ∨ m = msg := by
  unfold LogWhenVerbose at h
  split at h
  · simpa using h
  · exact Or.inl h

theorem checkForGo_log (wd : String) (importDir : String → ImportResult) (verbose : Bool)
    (log : List LogMsg) (path : String) (isDir : Bool) (m : LogMsg)
    (h : m ∈ (checkForGo wd importDir verbose log path isDir).2.2) :
    m ∈ log ∨ m = LogMsg.unexpectedImportError := by
  have hgo : m ∈ (hasGoFiles importDir verbose log path).2 →
      m ∈ log ∨ m = LogMsg.unexpectedImportError := by
    unfold hasGoFiles
    split
    · exact Or.inl
    · exact Or.inl
    · exact LogWhenVerbose_mem _ _ _ _
  unfold checkForGo at h
  split at h
  · exact Or.inl h
  · dsimp only at h
    split at h
    · exact Or.inl h
    · split at h
      · exact Or.inl h
      · split at h
        · exact hgo h
        · split at h
          · exact hgo h
          · exact hgo h

theorem finderWalkFn_log (wd : String) (importDir : String → ImportResult) (verbose : Bool)
    (searchFor : mode) (s : FinderState) (path : String) (isDir err : Bool)
    (h : ∀ e, LogMsg.restoreFailed e ∉ s.log) :
    ∀ e, LogMsg.restoreFailed e ∉
      (finderWalkFn wd importDir verbose searchFor s path isDir err).1.log := by
  intro e hmem
  have hr : ∀ m, m ∈ (match searchFor with
      | .goFiles => checkForGo wd importDir verbose s.log path isDir
      | .coverageFiles => ((checkForCoverage wd path isDir).1,
          (checkForCoverage wd path isDir).2, s.log)).2.2 →
      m ∈ s.log ∨ m = LogMsg.unexpectedImportError := by
    intro m hm
    cases searchFor with
    | goFiles => exact checkForGo_log _ _ _ _ _ _ _ hm
    | coverageFiles => exact Or.inl hm
  unfold finderWalkFn at hmem
  split at hmem
  · rcases LogWhenVerbose_mem _ _ _ _ hmem with h1 | h1
    · exact h e h1
    · cases h1
  · dsimp only at hmem
    split at hmem
    · rcases hr _ hmem with h1 | h1
      · exact h e h1
      · cases h1
    · split at hmem
      · split at hmem
        · rcases LogWhenVerbose_mem _ _ _ _ hmem with h1 | h1
          · rcases hr _ h1 with h2 | h2
            · exact h e h2
            · cases h2
          · cases h1
        · rcases hr _ hmem with h1 | h1
          · exact h e h1
          · cases h1
      · rcases hr _ hmem with h1 | h1
        · exact h e h1
        · cases h1

theorem finder_log_no_restore (w : World) (basePath : String) (searchFor : mode) :
    ∀ e, LogMsg.restoreFailed e ∉ (finder w basePath searchFor).log := by
  cases hb : w.baseWd with
  | none =>
    rw [finder_none w basePath searchFor hb]
    intro e he; simp at he
  | some wd =>
    rw [finder_some w basePath searchFor wd hb]
    exact Walk_invariant (finderWalkFn wd w.importDir w.verbose searchFor)
      (fun s => ∀ e, LogMsg.restoreFailed e ∉ s.log)
      (fun s p d e hs => finderWalkFn_log _ _ _ _ s p d e hs) "./" w.tree ⟨[], []⟩
      (fun e he => by simp at he)

theorem finder_restoreOk_irrelevant (w : World) (basePath : String) (searchFor : mode)
    (b : Bool) :
    finder { w with restoreOk := b } basePath searchFor = finder w basePath searchFor := by
  cases hb : w.baseWd with
  | none =>
    rw [finder_none w basePath searchFor hb, finder_none _ basePath searchFor rfl]
  | some wd =>
    rw [finder_some w basePath searchFor wd hb, finder_some _ basePath searchFor wd rfl]

theorem finder_chdirs (w : World) (basePath : String) (searchFor : mode)
    (h : w.baseWd.isSome = true) :
    (finder w basePath searchFor).chdirs = [basePath, GetCurrentDir w.getwd] ∧
    (finder w basePath searchFor).err = none := by
  cases hb : w.baseWd with
  | none => rw [hb] at h; simp at h
  | some wd => rw [finder_some w basePath searchFor wd hb]; exact ⟨rfl, rfl⟩
theorem Clean_valid (segs : List (List Char)) (hne : segs ≠ [])
    (h : ∀ s ∈ segs, validName s) : Clean ⟨joinSep segs⟩ = ⟨joinSep segs⟩ := by
  obtain ⟨h1, h2⟩ := joinSep_head segs hne h
  have helems : cleanElems false (joinSep segs) = segs := by
    unfold cleanElems
    rw [splitSep_joinSep segs hne (fun s hs => (h s hs).2.1),
      foldl_cleanStep_valid false segs [] h]
    simp
  unfold Clean
  rw [if_neg h1, if_neg h2, helems, if_neg hne]

theorem Join_root (name : String) (h : validName name.data) :
    Join "./" name = ⟨joinSep ([] ++ [name.data])⟩ := by
  have hn : '/' ∉ name.data := h.2.1
  have hd : ("./" ++ "/" ++ name).data = '.' :: '/' :: '/' :: name.data := by
    simp [String.data_append]
  have hsplit : splitSep ('.' :: '/' :: '/' :: name.data) = [['.'], [], name.data] := by
    have := splitSep_append ['.'] ('/' :: name.data) (by simp)
    simp only [List.singleton_append] at this
    rw [this]
    have h2 := splitSep_append [] name.data (by simp)
    simp only [List.nil_append] at h2
    rw [h2, splitSep_single _ hn]
  have helems : cleanElems false ('.' :: '/' :: '/' :: name.data) = [name.data] := by
    unfold cleanElems
    rw [hsplit]
    simp only [List.foldl_cons, List.foldl_nil]
    have s1 : cleanStep false [] ['.'] = [] := by simp [cleanStep]
    have s2 : cleanStep false [] [] = [] := by simp [cleanStep]
    rw [s1, s2, cleanStep_valid false [] name.data h]
    rfl
  have hne : ("./" : String) ≠ "" := by decide
  unfold Join
  rw [if_pos hne]
  unfold Clean
  rw [hd, if_neg (by simp), if_neg (by simp), helems, if_neg (by simp)]
  rfl

theorem Join_entry (segs : List (List Char)) (hne : segs ≠ []) (name : String)
    (h : ∀ s ∈ segs ++ [name.data], validName s) :
    Join ⟨joinSep segs⟩ name = ⟨joinSep (segs ++ [name.data])⟩ := by
  have hsegs : ∀ s ∈ segs, validName s := fun s hs => h s (List.mem_append_left _ hs)
  obtain ⟨h1, _⟩ := joinSep_head segs hne hsegs
  have hdir : (⟨joinSep segs⟩ : String) ≠ "" := by
    intro e
    exact h1 (congrArg String.data e)
  have hd : ((⟨joinSep segs⟩ : String) ++ "/" ++ name) = ⟨joinSep (segs ++ [name.data])⟩ := by
    apply String.ext
    rw [joinSep_snoc _ _ hne]
    simp [String.data_append]
  unfold Join
  rw [if_pos hdir, hd]
  exact Clean_valid _ (by simp) h

theorem Join_visited (path name : String) (hv : Visited path) (h : validName name.data) :
    Visited (Join path name) := by
  cases hv with
  | root =>
    rw [Join_root name h]
    exact Visited.entry [] name.data (by simpa using h)
  | entry parents n hvalid =>
    have hall : ∀ s ∈ (parents ++ [n]) ++ [name.data], validName s := by
      intro s hs
      rcases List.mem_append.1 hs with hs | hs
      · exact hvalid s hs
      · simp at hs; subst hs; exact h
    rw [Join_entry (parents ++ [n]) (by simp) name hall]
    exact Visited.entry (parents ++ [n]) name.data hall

mutual
theorem walk_congr {σ : Type} (f g : σ → String → Bool → Bool → σ × Option Err)
    (hfg : ∀ s p d e, Visited p → f s p d e = g s p d e) :
    ∀ (node : FsNode) (path : String) (s : σ), Visited path → node.WellNamed →
      walk f path node s = walk g path node s
  | .file, path, s, hv, _ => by
    simp only [walk]; exact hfg _ _ _ _ hv
  | .broken, path, s, hv, _ => by
    simp only [walk]; exact hfg _ _ _ _ hv
  | .dir readable entries, path, s, hv, hw => by
    simp only [walk]
    rw [hfg _ _ _ _ hv]
    split
    · rfl
    · exact walkEntries_congr f g hfg entries path _ hv (by simpa [FsNode.WellNamed] using hw)
theorem walkEntries_congr {σ : Type} (f g : σ → String → Bool → Bool → σ × Option Err)
    (hfg : ∀ s p d e, Visited p → f s p d e = g s p d e) :
    ∀ (entries : List (String × FsNode)) (path : String) (s : σ), Visited path →
      FsNode.WellNamed.wellNamedEntries entries →
      walk.walkEntries f path entries s = walk.walkEntries g path entries s
  | [], path, s, _, _ => by
    simp only [walk.walkEntries]
  | (name, .broken) :: rest, path, s, hv, hw => by
    simp only [FsNode.WellNamed.wellNamedEntries] at hw
    simp only [walk.walkEntries]
    rw [hfg _ _ _ _ (Join_visited path name hv hw.1)]
    split
    · rfl
    · exact walkEntries_congr f g hfg rest path _ hv hw.2.2
  | (name, .file) :: rest, path, s, hv, hw => by
    simp only [FsNode.WellNamed.wellNamedEntries] at hw
    simp only [walk.walkEntries]
    rw [walk_congr f g hfg .file (Join path name) s (Join_visited path name hv hw.1) hw.2.1]
    split
    · rfl
    · exact walkEntries_congr f g hfg rest path _ hv hw.2.2
  | (name, .dir readable entries) :: rest, path, s, hv, hw => by
    simp only [FsNode.WellNamed.wellNamedEntries] at hw
    simp only [walk.walkEntries]
    rw [walk_congr f g hfg (.dir readable entries) (Join path name) s
      (Join_visited path name hv hw.1) hw.2.1]
    split
    · rfl
    · exact walkEntries_congr f g hfg rest path _ hv hw.2.2
end

theorem Walk_visits_only {σ : Type} (f g : σ → String → Bool → Bool → σ × Option Err)
    (hfg : ∀ s p d e, Visited p → f s p d e = g s p d e) (tree : FsNode)
    (hw : tree.WellNamed) (s : σ) : Walk "./" tree f s = Walk "./" tree g s := by
  unfold Walk
  rw [walk_congr f g hfg tree "./" s Visited.root hw]
theorem scaled_toRat (neg : Bool) (m : Nat) (e lo : Int) (h : lo ≤ e) :
    ((F64.scaled neg m e lo : Int) : ℚ) * (2 : ℚ) ^ lo = (F64.fin neg m e).toRat := by
  have h1 : 0 ≤ e - lo := by omega
  have hp : (2 : ℚ) ^ (e - lo).toNat = (2 : ℚ) ^ (e - lo) := by
    have := two_pow_toNat _ h1
    push_cast at this
    exact this
  have hmul : (2 : ℚ) ^ (e - lo) * (2 : ℚ) ^ lo = (2 : ℚ) ^ e := by
    rw [← zpow_add₀ (by norm_num)]; congr 1; omega
  unfold F64.scaled F64.toRat
  cases neg
  · simp only [Bool.false_eq_true, if_false]
    push_cast
    rw [hp, one_mul, mul_assoc, hmul]
  · simp only [if_true]
    push_cast
    rw [hp, neg_mul, mul_assoc, hmul]; ring

theorem lt_fin_iff (s t : Bool) (m m' : Nat) (e e' : Int) :
    F64.lt (F64.fin s m e) (F64.fin t m' e') = true ↔
      (F64.fin s m e).toRat < (F64.fin t m' e').toRat := by
  have hlo : (0 : ℚ) < (2 : ℚ) ^ (min e e') := two_zpow_pos _
  rw [← scaled_toRat s m e (min e e') (min_le_left _ _),
    ← scaled_toRat t m' e' (min e e') (min_le_right _ _), mul_lt_mul_right hlo, Int.cast_lt]
  simp [F64.lt]

theorem eighty_eq : F64.ofInt 80 = F64.fin false 5629499534213120 (-46) := by decide

theorem percent_fifty_below_eighty (c : coverage)
    (hpos : 0 < c.selfStatements + c.childStatements)
    (hstmts : c.selfStatements + c.childStatements < 2 ^ 53)
    (hcov0 : 0 ≤ c.selfCovered + c.childCovered)
    (hcov : c.selfCovered + c.childCovered < 2 ^ 53)
    (h50 : exactPercent c = 50) :
    F64.lt (getStats c).1 (F64.ofInt 80) = true := by
  obtain ⟨_, _, hfin, herr⟩ := getStats_general c hpos hstmts hcov0 hcov
  rw [h50] at herr
  have hup := (abs_le.1 herr).2
  cases hg : (getStats c).1 with
  | nan => rw [hg] at hfin; simp [F64.isFinite] at hfin
  | inf s => rw [hg] at hfin; simp [F64.isFinite] at hfin
  | fin s m e =>
    rw [hg] at hup
    rw [eighty_eq, lt_fin_iff]
    have h80 : (F64.fin false 5629499534213120 (-46)).toRat = 80 := by
      rw [toRat_fin_false]
      have : (2 : ℚ) ^ (-46 : Int) = 1 / 70368744177664 := by
        rw [zpow_neg, one_div]
        have h46 : (2 : ℚ) ^ (46 : Int) = 2 ^ 46 := zpow_natCast 2 46
        rw [h46]; norm_num
      rw [this]; norm_num
    rw [h80]
    norm_num at hup
    linarith
theorem ofInt_toRat (n : Nat) (h : n < 2 ^ 53) : (F64.ofInt (n : Int)).toRat = n := by
  obtain ⟨m, e, h1, h2⟩ := ofInt_exact n h
  rw [h1, toRat_fin_false, h2]

theorem rows_count (coverageData : coverageByPackage) (minCoverage : F64) :
    ∀ (pkgs : List String) (rows : List Line),
      List.Forall₂ (fun p r => ∃ c, coverageData.lookup p = some c ∧ r = rowOf minCoverage p c)
        pkgs rows →
      rows.countP (Line.isRowOn Stream.stderr) + rows.countP (Line.isRowOn Stream.stdout)
        = pkgs.length ∧ ∀ r ∈ rows, r.isRow = true := by
  intro pkgs rows h
  induction h with
  | nil => simp
  | cons hpr _ ih =>
    obtain ⟨c, _, hr⟩ := hpr
    subst hr
    obtain ⟨ih1, ih2⟩ := ih
    constructor
    · by_cases hlt : F64.lt (getStats c).1 minCoverage = true
      · simp [rowOf, hlt, Line.isRowOn, List.countP_cons]
        omega
      · simp [rowOf, hlt, Line.isRowOn, List.countP_cons]
        omega
    · intro r hr
      rcases List.mem_cons.1 hr with rfl | hr
      · simp [rowOf, Line.isRow]
      · exact ih2 r hr

theorem stream_by_exact_percent (c : coverage) (minCoverage : F64)
    (hpos : 0 < c.selfStatements + c.childStatements)
    (hstmts : c.selfStatements + c.childStatements < 2 ^ 53)
    (hcov0 : 0 ≤ c.selfCovered + c.childCovered)
    (hcov : c.selfCovered + c.childCovered < 2 ^ 53)
    (hm : minCoverage.isFinite = true) :
    (exactPercent c * (1 + 1 / 2 ^ 51) < minCoverage.toRat →
      F64.lt (getStats c).1 minCoverage = true) ∧
    (minCoverage.toRat ≤ exactPercent c * (1 - 1 / 2 ^ 51) →
      F64.lt (getStats c).1 minCoverage = false) := by
  obtain ⟨_, _, hfin, herr⟩ := getStats_general c hpos hstmts hcov0 hcov
  obtain ⟨hlo, hhi⟩ := abs_le.1 herr
  cases hg : (getStats c).1 with
  | nan => rw [hg] at hfin; simp [F64.isFinite] at hfin
  | inf s => rw [hg] at hfin; simp [F64.isFinite] at hfin
  | fin s m e =>
    rw [hg] at hlo hhi
    cases minCoverage with
    | nan => simp [F64.isFinite] at hm
    | inf t => simp [F64.isFinite] at hm
    | fin t m' e' =>
      constructor
      · intro h
        rw [lt_fin_iff]
        linarith
      · intro h
        cases hb : F64.lt (F64.fin s m e) (F64.fin t m' e')
        · rfl
        · rw [lt_fin_iff] at hb
          linarith

/-! ## the claims -/

/-- C1, counterexample: with threshold 29 and the single package `p` holding 100
statements of which 29 are covered, the exact percentage is 29 and so not strictly
below the threshold, yet `printCoverage` returns false: the percentage `getStats`
computes in binary64 is `8162774324609023 * 2 ^ (-48)`, just under 29. -/
theorem printCoverage_exact_percent_counterexample :
    (F64.ofInt 29).toRat = 29 ∧
    exactPercent ⟨100, 29, 0, 0⟩ = 29 ∧
    ¬ (exactPercent ⟨100, 29, 0, 0⟩ < (F64.ofInt 29).toRat) ∧
    (printCoverage ["p"] [("p", ⟨100, 29, 0, 0⟩)] (F64.ofInt 29)).map Prod.snd = some false := by
  have h29 : (F64.ofInt 29).toRat = 29 := by
    have := ofInt_toRat 29 (by norm_num)
    simpa using this
  have hex : exactPercent ⟨100, 29, 0, 0⟩ = 29 := by
    norm_num [exactPercent]
  refine ⟨h29, hex, ?_, by decide⟩
  rw [h29, hex]
  exact lt_irrefl _

/-- C1, amended: when every key of `pkgs` has a node in the map, `printCoverage` returns,
and it returns true if and only if no package of `pkgs` has the percentage computed by
`getStats` in binary64 arithmetic strictly below the threshold. It returns true for the
empty list, and it returns false for threshold 80 when some package with positive total
below `2 ^ 53` has an exact percentage of 50. -/
theorem printCoverage_verdict (pkgs : List String) (coverageData : coverageByPackage)
    (minCoverage : F64) (h : ∀ p ∈ pkgs, ∃ c, coverageData.lookup p = some c) :
    (∃ out ok, printCoverage pkgs coverageData minCoverage = some (out, ok) ∧
      (ok = true ↔ ∀ p ∈ pkgs, ∀ c, coverageData.lookup p = some c →
        F64.lt (getStats c).1 minCoverage = false)) ∧
    (printCoverage [] coverageData minCoverage).map Prod.snd = some true ∧
    ((∃ p ∈ pkgs, ∃ c, coverageData.lookup p = some c ∧
        0 < c.selfStatements + c.childStatements ∧
        c.selfStatements + c.childStatements < 2 ^ 53 ∧
        0 ≤ c.selfCovered + c.childCovered ∧ exactPercent c = 50) →
      (printCoverage pkgs coverageData (F64.ofInt 80)).map Prod.snd = some false) := by
  refine ⟨?_, ?_, ?_⟩
  · obtain ⟨rows, ok, h1, _, h3⟩ := printCoverage_general pkgs coverageData minCoverage h
    exact ⟨_, ok, h1, h3⟩
  · obtain ⟨rows, ok, h1, _, h3⟩ :=
      printCoverage_general [] coverageData minCoverage (by simp)
    have hok : ok = true := h3.2 (by simp)
    rw [h1, hok]; rfl
  · rintro ⟨p, hp, c, hc, hpos, hstmts, hcov0, h50⟩
    obtain ⟨rows, ok, h1, _, h3⟩ := printCoverage_general pkgs coverageData (F64.ofInt 80) h
    have hcov : c.selfCovered + c.childCovered < 2 ^ 53 := by
      have hq : exactPercent c = 50 := h50
      unfold exactPercent at hq
      have hpos' : (0 : ℚ) < ((c.selfStatements + c.childStatements : Int) : ℚ) := by
        exact_mod_cast hpos
      rw [div_mul_eq_mul_div, div_eq_iff hpos'.ne'] at hq
      have hq' : (c.selfCovered + c.childCovered) * 100
          = 50 * (c.selfStatements + c.childStatements) := by exact_mod_cast hq
      omega
    have hlt := percent_fifty_below_eighty c hpos hstmts hcov0 hcov h50
    have hok : ok = false := by
      cases hb : ok
      · rfl
      · have := h3.1 hb p hp c hc
        rw [hlt] at this
        exact absurd this (by simp)
    rw [h1, hok]; rfl

/-- C1, witness: the two packages of scenario B, in sorted order, with threshold 80. -/
theorem printCoverage_verdict_witness :
    (∀ p ∈ ["pkg", "pkg/sub"], ∃ c, sampleCoverage.lookup p = some c) ∧
    (printCoverage ["pkg", "pkg/sub"] sampleCoverage (F64.ofInt 80)).map Prod.snd
      = some false := by
  have h : ∀ p ∈ ["pkg", "pkg/sub"], ∃ c, sampleCoverage.lookup p = some c := by
    intro p hp
    simp only [List.mem_cons, List.mem_singleton, List.not_mem_nil, or_false] at hp
    rcases hp with rfl | rfl
    · exact ⟨⟨4, 1, 2, 2⟩, by decide⟩
    · exact ⟨⟨2, 2, 0, 0⟩, by decide⟩
  refine ⟨h, ?_⟩
  refine (printCoverage_verdict ["pkg", "pkg/sub"] sampleCoverage (F64.ofInt 80) h).2.2
    ⟨"pkg", by simp, ⟨4, 1, 2, 2⟩, by decide, by decide, by decide, by decide, ?_⟩
  norm_num [exactPercent]

/-- C2, counterexample: for the node with 100 statements of which 29 are covered, the
total is positive but the percentage `getStats` returns is `8162774324609023 * 2 ^ (-48)`,
which is not the exact rational 29. -/
theorem getStats_exact_rational_counterexample :
    (0 : Int) < (⟨100, 29, 0, 0⟩ : coverage).selfStatements
      + (⟨100, 29, 0, 0⟩ : coverage).childStatements ∧
    getStats ⟨100, 29, 0, 0⟩
      = (F64.fin false 8162774324609023 (-48), F64.fin false 7036874417766400 (-46)) ∧
    (getStats ⟨100, 29, 0, 0⟩).1.toRat ≠ exactPercent ⟨100, 29, 0, 0⟩ := by
  have hg : getStats ⟨100, 29, 0, 0⟩
      = (F64.fin false 8162774324609023 (-48), F64.fin false 7036874417766400 (-46)) := by
    decide
  refine ⟨by decide, hg, ?_⟩
  rw [hg, toRat_fin_false]
  have h48 : (2 : ℚ) ^ (-48 : Int) = 1 / 281474976710656 := by
    rw [zpow_neg, one_div]
    have h : (2 : ℚ) ^ (48 : Int) = 2 ^ 48 := zpow_natCast 2 48
    rw [h]; norm_num
  rw [h48]
  norm_num [exactPercent]

/-- C2, amended: for every node whose total `selfStatements + childStatements` is positive
and below `2 ^ 53`, with a covered count that is not negative and below `2 ^ 53`,
`getStats` returns finite values; the second is exactly the total, and the first is the
binary64 result of `(covered / total) * 100`, which differs from the exact rational
percentage by at most that percentage divided by `2 ^ 51`. For the node self = 4 / 1,
child = 2 / 2 it returns exactly (50, 6), and for self = 2 / 2, child = 0 / 0 exactly
(100, 2). -/
theorem getStats_percent_total (c : coverage)
    (hpos : 0 < c.selfStatements + c.childStatements)
    (hstmts : c.selfStatements + c.childStatements < 2 ^ 53)
    (hcov0 : 0 ≤ c.selfCovered + c.childCovered)
    (hcov : c.selfCovered + c.childCovered < 2 ^ 53) :
    ((getStats c).2.isFinite = true ∧
      (getStats c).2.toRat = ((c.selfStatements + c.childStatements : Int) : ℚ) ∧
      (getStats c).1.isFinite = true ∧
      |(getStats c).1.toRat - exactPercent c| ≤ exactPercent c / 2 ^ 51) ∧
    (getStats ⟨4, 1, 2, 2⟩ = (F64.ofInt 50, F64.ofInt 6) ∧
      (F64.ofInt 50).toRat = 50 ∧ (F64.ofInt 6).toRat = 6) ∧
    (getStats ⟨2, 2, 0, 0⟩ = (F64.ofInt 100, F64.ofInt 2) ∧
      (F64.ofInt 100).toRat = 100 ∧ (F64.ofInt 2).toRat = 2) := by
  refine ⟨getStats_general c hpos hstmts hcov0 hcov, ⟨by decide, ?_, ?_⟩, ⟨by decide, ?_, ?_⟩⟩
  · simpa using ofInt_toRat 50 (by norm_num)
  · simpa using ofInt_toRat 6 (by norm_num)
  · simpa using ofInt_toRat 100 (by norm_num)
  · simpa using ofInt_toRat 2 (by norm_num)

/-- C2, witness: the node `pkg` of scenario B. -/
theorem getStats_percent_total_witness :
    (getStats ⟨4, 1, 2, 2⟩).2.toRat = 6 ∧
    |(getStats ⟨4, 1, 2, 2⟩).1.toRat - exactPercent ⟨4, 1, 2, 2⟩|
      ≤ exactPercent ⟨4, 1, 2, 2⟩ / 2 ^ 51 := by
  have h := (getStats_percent_total ⟨4, 1, 2, 2⟩ (by decide) (by decide) (by decide)
    (by decide)).1
  refine ⟨?_, h.2.2.2⟩
  rw [h.2.1]
  norm_num

/-- C3: for every node whose total `selfStatements + childStatements` is zero, the
percentage `getStats` returns is not a finite number: the division `covered / total` is
carried out with `total = 0`, giving NaN when the covered count is zero as well and an
infinity otherwise. -/
theorem getStats_zero_total (c : coverage) (h : c.selfStatements + c.childStatements = 0) :
    (getStats c).1.isFinite = false ∧
    (c.selfCovered + c.childCovered = 0 → (getStats c).1 = F64.nan) :=
  getStats_zero_general c h

/-- C3, witness: the node without any statement yields NaN, and `printCoverage` writes its
row to the standard stream and reports success against threshold 80. -/
theorem getStats_zero_total_witness :
    (getStats ⟨0, 0, 0, 0⟩).1 = F64.nan ∧
    printCoverage ["p"] [("p", ⟨0, 0, 0, 0⟩)] (F64.ofInt 80)
      = some ([Line.header, Line.row Stream.stdout F64.nan (F64.fin false 0 (-1074)) "p",
          Line.blank], true) :=
  ⟨(getStats_zero_total ⟨0, 0, 0, 0⟩ (by decide)).2 (by decide), by decide⟩

/-- C4: for every coverage map (its keys distinct), `getSortedPackages` returns a list
whose members are exactly the keys of the map, each occurring once, in strictly ascending
order; and it returns the same list for every order in which the map is enumerated. -/
theorem getSortedPackages_sorted_keys (coverageData : coverageByPackage)
    (hmap : coverageData.keys.Nodup) :
    (∀ k, k ∈ getSortedPackages coverageData ↔ k ∈ coverageData.keys) ∧
    (∀ k ∈ coverageData.keys, (getSortedPackages coverageData).count k = 1) ∧
    (getSortedPackages coverageData).Sorted (· < ·) ∧
    (∀ other : coverageByPackage, other.Perm coverageData →
      getSortedPackages other = getSortedPackages coverageData) :=
  getSortedPackages_general coverageData hmap

/-- C4, witness: the map of scenario B, also enumerated in the other order. -/
theorem getSortedPackages_sorted_keys_witness :
    sampleCoverage.keys.Nodup ∧
    getSortedPackages [("pkg", ⟨4, 1, 2, 2⟩), ("pkg/sub", ⟨2, 2, 0, 0⟩)]
      = getSortedPackages sampleCoverage :=
  ⟨by decide,
    (getSortedPackages_sorted_keys sampleCoverage (by decide)).2.2.2 _ (List.Perm.swap _ _ _)⟩

/-- C5, counterexample: with threshold 29 and the single package `p` holding 100
statements of which 29 are covered, the total is not zero and the percent of the package,
29, is not strictly below the threshold, yet `printCoverage` writes the row of `p` to the
error stream: the row carries the binary64 value `8162774324609023 * 2 ^ (-48)`. -/
theorem printCoverage_row_stream_counterexample :
    (⟨100, 29, 0, 0⟩ : coverage).selfStatements + (⟨100, 29, 0, 0⟩ : coverage).childStatements
      ≠ 0 ∧
    (F64.ofInt 29).toRat = 29 ∧
    ¬ (exactPercent ⟨100, 29, 0, 0⟩ < (F64.ofInt 29).toRat) ∧
    printCoverage ["p"] [("p", ⟨100, 29, 0, 0⟩)] (F64.ofInt 29)
      = some ([Line.header,
          Line.row Stream.stderr (F64.fin false 8162774324609023 (-48)) (F64.ofInt 100) "p",
          Line.blank], false) := by
  have h29 : (F64.ofInt 29).toRat = 29 := by
    have := ofInt_toRat 29 (by norm_num)
    simpa using this
  have hex : exactPercent ⟨100, 29, 0, 0⟩ = 29 := by
    norm_num [exactPercent]
  refine ⟨by decide, h29, ?_, by decide⟩
  rw [h29, hex]
  exact lt_irrefl _

/-- C5, amended: when every key of `pkgs` has a node in the map, `printCoverage` writes the
header, then one row per element of `pkgs` in the order of `pkgs`, then the blank line. The
row of a package carries the two values of `getStats` and is on the error stream if and
only if the percentage `getStats` computes in binary64 is strictly below the threshold, on
the standard stream otherwise. For a node with positive total below `2 ^ 53` the row
shows the exact total and a percentage within a relative `2 ^ (-51)` of the exact percent,
so against a finite threshold the row is on the error stream when the exact percent times
`1 + 2 ^ (-51)` is below the threshold and on the standard stream when the exact percent
times `1 - 2 ^ (-51)` is at least the threshold. The rows on the two streams together number
`pkgs.length`. -/
theorem printCoverage_rows (pkgs : List String) (coverageData : coverageByPackage)
    (minCoverage : F64) (h : ∀ p ∈ pkgs, ∃ c, coverageData.lookup p = some c) :
    ∃ rows ok, printCoverage pkgs coverageData minCoverage
        = some (Line.header :: rows ++ [Line.blank], ok) ∧
      List.Forall₂ (fun p r => ∃ c s covered stmts, coverageData.lookup p = some c ∧
          r = Line.row s covered stmts p ∧ getStats c = (covered, stmts) ∧
          (s = Stream.stderr ↔ F64.lt covered minCoverage = true) ∧
          (s = Stream.stdout ↔ F64.lt covered minCoverage = false) ∧
          (0 < c.selfStatements + c.childStatements →
            c.selfStatements + c.childStatements < 2 ^ 53 →
            0 ≤ c.selfCovered + c.childCovered →
            c.selfCovered + c.childCovered < 2 ^ 53 →
            stmts.toRat = ((c.selfStatements + c.childStatements : Int) : ℚ) ∧
            |covered.toRat - exactPercent c| ≤ exactPercent c / 2 ^ 51 ∧
            (minCoverage.isFinite = true →
              (exactPercent c * (1 + 1 / 2 ^ 51) < minCoverage.toRat → s = Stream.stderr) ∧
              (minCoverage.toRat ≤ exactPercent c * (1 - 1 / 2 ^ 51) → s = Stream.stdout))))
        pkgs rows ∧
      (∀ r ∈ rows, r.isRow = true) ∧
      rows.countP (Line.isRowOn Stream.stderr) + rows.countP (Line.isRowOn Stream.stdout)
        = pkgs.length := by
  obtain ⟨rows, ok, h1, h2, _⟩ := printCoverage_general pkgs coverageData minCoverage h
  obtain ⟨h3, h4⟩ := rows_count coverageData minCoverage pkgs rows h2
  refine ⟨rows, ok, h1, ?_, h4, h3⟩
  refine h2.imp ?_
  rintro p r ⟨c, hc, hr⟩
  have hexact : 0 < c.selfStatements + c.childStatements →
      c.selfStatements + c.childStatements < 2 ^ 53 →
      0 ≤ c.selfCovered + c.childCovered →
      c.selfCovered + c.childCovered < 2 ^ 53 →
      (getStats c).2.toRat = ((c.selfStatements + c.childStatements : Int) : ℚ) ∧
      |(getStats c).1.toRat - exactPercent c| ≤ exactPercent c / 2 ^ 51 ∧
      (minCoverage.isFinite = true →
        (exactPercent c * (1 + 1 / 2 ^ 51) < minCoverage.toRat →
          F64.lt (getStats c).1 minCoverage = true) ∧
        (minCoverage.toRat ≤ exactPercent c * (1 - 1 / 2 ^ 51) →
          F64.lt (getStats c).1 minCoverage = false)) := by
    intro hpos hstmts hcov0 hcov
    obtain ⟨_, g2, _, g4⟩ := getStats_general c hpos hstmts hcov0 hcov
    exact ⟨g2, g4, fun hm => stream_by_exact_percent c minCoverage hpos hstmts hcov0 hcov hm⟩
  by_cases hlt : F64.lt (getStats c).1 minCoverage = true
  · refine ⟨c, Stream.stderr, (getStats c).1, (getStats c).2, hc, by simp [hr, rowOf, hlt],
      rfl, by simp [hlt], by simp [hlt], ?_⟩
    intro hpos hstmts hcov0 hcov
    obtain ⟨g2, g4, g5⟩ := hexact hpos hstmts hcov0 hcov
    refine ⟨g2, g4, fun hm => ⟨fun _ => rfl, fun hge => ?_⟩⟩
    have := (g5 hm).2 hge
    rw [hlt] at this
    exact absurd this (by simp)
  · have hlt' : F64.lt (getStats c).1 minCoverage = false := by simpa using hlt
    refine ⟨c, Stream.stdout, (getStats c).1, (getStats c).2, hc, by simp [hr, rowOf, hlt'],
      rfl, by simp [hlt'], by simp [hlt'], ?_⟩
    intro hpos hstmts hcov0 hcov
    obtain ⟨g2, g4, g5⟩ := hexact hpos hstmts hcov0 hcov
    refine ⟨g2, g4, fun hm => ⟨fun hbelow => ?_, fun _ => rfl⟩⟩
    have := (g5 hm).1 hbelow
    rw [hlt'] at this
    exact absurd this (by simp)

/-- C5, witness: scenario B with threshold 80 writes the row of `pkg`, at 50 percent of 6
statements, to the error stream and then the row of `pkg/sub`, at 100 percent of 2
statements, to the standard stream. -/
theorem printCoverage_rows_witness :
    (∀ p ∈ ["pkg", "pkg/sub"], ∃ c, sampleCoverage.lookup p = some c) ∧
    (∃ rows ok, printCoverage ["pkg", "pkg/sub"] sampleCoverage (F64.ofInt 80)
        = some (Line.header :: rows ++ [Line.blank], ok) ∧
      rows.countP (Line.isRowOn Stream.stderr) + rows.countP (Line.isRowOn Stream.stdout)
        = 2) ∧
    printCoverage ["pkg", "pkg/sub"] sampleCoverage (F64.ofInt 80)
      = some ([Line.header,
          Line.row Stream.stderr (F64.ofInt 50) (F64.ofInt 6) "pkg",
          Line.row Stream.stdout (F64.ofInt 100) (F64.ofInt 2) "pkg/sub",
          Line.blank], false) := by
  have h : ∀ p ∈ ["pkg", "pkg/sub"], ∃ c, sampleCoverage.lookup p = some c := by
    intro p hp
    simp only [List.mem_cons, List.mem_singleton, List.not_mem_nil, or_false] at hp
    rcases hp with rfl | rfl
    · exact ⟨⟨4, 1, 2, 2⟩, by decide⟩
    · exact ⟨⟨2, 2, 0, 0⟩, by decide⟩
  obtain ⟨rows, ok, h1, _, _, h4⟩ :=
    printCoverage_rows ["pkg", "pkg/sub"] sampleCoverage (F64.ofInt 80) h
  exact ⟨h, ⟨rows, ok, h1, h4⟩, by decide⟩

/-- C6: for every world, base path and mode, no path `finder` returns contains the
substring `/vendor/`; in particular `FindAllCoverageFiles` never returns the absolute path
of an entry below a directory `vendor/thirdparty`, at the top of the base path or deeper
in it. -/
theorem finder_excludes_vendor (w : World) (basePath : String) (searchFor : mode)
    (pre rest : String) (hpre : pre = "" ∨ HasSuffix pre "/" = true) :
    (∀ p ∈ (finder w basePath searchFor).paths, Contains p "/vendor/" = false) ∧
    GetCurrentDir (w.baseWd.getD "") ++ (pre ++ "vendor/thirdparty/" ++ rest)
      ∉ (FindAllCoverageFiles w basePath).paths := by
  refine ⟨finder_no_vendor w basePath searchFor, ?_⟩
  intro hmem
  have h1 := finder_no_vendor w basePath mode.coverageFiles _ hmem
  rw [contains_vendor _ pre rest hpre] at h1
  exact absurd h1 (by simp)

/-- C6, witness: in the sample tree the profiles `vendor/thirdparty/w.cov` and
`a/vendor/thirdparty/v.cov` are not returned. -/
theorem finder_excludes_vendor_witness :
    GetCurrentDir (sampleWorld.baseWd.getD "") ++ ("" ++ "vendor/thirdparty/" ++ "w.cov")
      ∉ (FindAllCoverageFiles sampleWorld "proj").paths ∧
    GetCurrentDir (sampleWorld.baseWd.getD "") ++ ("a/" ++ "vendor/thirdparty/" ++ "v.cov")
      ∉ (FindAllCoverageFiles sampleWorld "proj").paths ∧
    (FindAllCoverageFiles sampleWorld "proj").paths
      = ["/home/u/proj/.hidden/x.cov", "/home/u/proj/_tmp/y.cov", "/home/u/proj/a/b.cov"] :=
  ⟨(finder_excludes_vendor sampleWorld "proj" mode.coverageFiles "" "w.cov" (Or.inl rfl)).2,
    (finder_excludes_vendor sampleWorld "proj" mode.coverageFiles "a/" "v.cov"
      (Or.inr (by decide))).2,
    by decide⟩

/-- C7, counterexample: for the directory `vendor` directly below the root, whose base
name equals `vendor`, `checkForGo` does not return `SkipDir`; the walk descends into it,
as the log entry for `vendor/thirdparty` in the sample run shows. -/
theorem checkForGo_vendor_not_skipped :
    (Split "vendor").2 = "vendor" ∧
    (checkForGo "/home/u/proj" (fun _ => ImportResult.ok) true [] "vendor" true).2.1
      ≠ some Err.SkipDir ∧
    LogMsg.skippingVendor "vendor/thirdparty" ∈ (FindAllGoDirs sampleWorld "proj").log := by
  decide

/-- C7, amended: in source-directory mode, for every directory entry the walk visits,
`checkForGo` returns `filepath.SkipDir` if and only if the base name of the entry starts
with `.` or `_` or equals `testdata`. For an entry below the root that base name is the
name of the entry; and the visited paths are all the walk hands to its walk function: on
a tree of valid names, the walk from `./` is the same for two walk functions that agree on
them. -/
theorem checkForGo_skipDir_iff (wd : String) (importDir : String → ImportResult)
    (verbose : Bool) (log : List LogMsg) (path : String) (hv : Visited path) :
    ((checkForGo wd importDir verbose log path true).2.1 = some Err.SkipDir ↔
      (HasPrefix (Split path).2 "." = true ∨ HasPrefix (Split path).2 "_" = true ∨
        (Split path).2 = "testdata")) ∧
    (∀ (parents : List (List Char)) (name : List Char),
      (∀ s ∈ parents ++ [name], validName s) →
      (Split ⟨joinSep (parents ++ [name])⟩).2 = ⟨name⟩) ∧
    (∀ (tree : FsNode) (f g : FinderState → String → Bool → Bool → FinderState × Option Err)
      (s : FinderState), tree.WellNamed →
      (∀ s p d e, Visited p → f s p d e = g s p d e) →
      Walk "./" tree f s = Walk "./" tree g s) :=
  ⟨checkForGo_skip_general wd importDir verbose log path hv,
    fun parents name h => Split_entry_snd parents name h,
    fun tree f g s hw hfg => Walk_visits_only f g hfg tree hw s⟩

/-- C7, witness: the directory `a/.git` is skipped. -/
theorem checkForGo_skipDir_iff_witness :
    Visited ⟨joinSep ([['a']] ++ [['.', 'g', 'i', 't']])⟩ ∧
    (checkForGo "/home/u/proj" (fun _ => ImportResult.ok) true []
      ⟨joinSep ([['a']] ++ [['.', 'g', 'i', 't']])⟩ true).2.1 = some Err.SkipDir := by
  have hv : Visited ⟨joinSep ([['a']] ++ [['.', 'g', 'i', 't']])⟩ :=
    Visited.entry [['a']] ['.', 'g', 'i', 't'] (by
      intro s hs
      simp only [List.singleton_append, List.mem_cons, List.mem_singleton, List.not_mem_nil,
        or_false] at hs
      rcases hs with rfl | rfl <;> simp [validName])
  exact ⟨hv, (checkForGo_skipDir_iff "/home/u/proj" (fun _ => ImportResult.ok) true []
    _ hv).1.2 (Or.inl (by decide))⟩

/-- C8: in profile-file mode the walk does not prune hidden or underscore-prefixed
directories: on the sample tree `FindAllCoverageFiles` returns the profiles inside
`.hidden` and `_tmp`, whereas `FindAllGoDirs` on the same tree returns nothing below
those two directories. -/
theorem findAllCoverageFiles_enters_hidden_dirs :
    "/home/u/proj/.hidden/x.cov" ∈ (FindAllCoverageFiles sampleWorld "proj").paths ∧
    "/home/u/proj/_tmp/y.cov" ∈ (FindAllCoverageFiles sampleWorld "proj").paths ∧
    (checkForCoverage "/home/u/proj" ".hidden" true).2 = none ∧
    (checkForGo "/home/u/proj" (fun _ => ImportResult.ok) true [] ".hidden" true).2.1
      = some Err.SkipDir ∧
    (FindAllGoDirs sampleWorld "proj").paths = ["/home/u/proj/", "/home/u/proj/a/"] := by
  decide

/-- C9: for every path `p`, working directory and kind of entry, `checkForCoverage` returns
the path `GetCurrentDir() + p`, which is not empty, together with no error if and only if
the entry is not a directory, its base name starts with neither `.` nor `_`, and `p` ends
in `.cov`; in every other case it returns the empty path and no error. -/
theorem checkForCoverage_candidate (wd path : String) (isDir : Bool) :
    ((checkForCoverage wd path isDir = (GetCurrentDir wd ++ path, none) ∧
        GetCurrentDir wd ++ path ≠ "") ↔
      (isDir = false ∧ HasPrefix (Split path).2 "." = false ∧
        HasPrefix (Split path).2 "_" = false ∧ HasSuffix path ".cov" = true)) ∧
    ((isDir = false ∧ HasPrefix (Split path).2 "." = false ∧
        HasPrefix (Split path).2 "_" = false ∧ HasSuffix path ".cov" = true) ∨
      checkForCoverage wd path isDir = ("", none)) :=
  checkForCoverage_general wd path isDir

/-- C10: whenever `finder` has changed into `basePath`, it calls `os.Chdir` with the
original working directory and returns no error, and what it returns does not depend on
whether that call succeeds; but no logged message reports a failed restoration, whatever
the outcome of the call and the verbosity. -/
theorem finder_restore_failure_not_logged (w : World) (basePath : String) (searchFor : mode)
    (h : w.baseWd.isSome = true) :
    (finder w basePath searchFor).chdirs = [basePath, GetCurrentDir w.getwd] ∧
    (finder w basePath searchFor).err = none ∧
    finder { w with restoreOk := false } basePath searchFor
      = finder { w with restoreOk := true } basePath searchFor ∧
    (∀ e, LogMsg.restoreFailed e ∉
      (finder { w with restoreOk := false, verbose := true } basePath searchFor).log) := by
  obtain ⟨h1, h2⟩ := finder_chdirs w basePath searchFor h
  refine ⟨h1, h2, ?_, finder_log_no_restore _ basePath searchFor⟩
  rw [finder_restoreOk_irrelevant w basePath searchFor false,
    finder_restoreOk_irrelevant w basePath searchFor true]

/-- C10, witness: in the sample run the restoration fails with verbose logging on, and
the log holds only the four messages about vendored directories. -/
theorem finder_restore_failure_not_logged_witness :
    sampleWorld.restoreOk = false ∧ sampleWorld.verbose = true ∧
    (FindAllGoDirs sampleWorld "proj").chdirs = ["proj", GetCurrentDir sampleWorld.getwd] ∧
    (FindAllGoDirs sampleWorld "proj").log
      = [LogMsg.skippingVendor "a/vendor", LogMsg.skippingVendor "a/vendor/thirdparty",
          LogMsg.skippingVendor "vendor", LogMsg.skippingVendor "vendor/thirdparty"] :=
  ⟨rfl, rfl,
    (finder_restore_failure_not_logged sampleWorld "proj" mode.goFiles (by decide)).1,
    by decide⟩

end PackageCoverage
